import Mathlib

/-!
Verification development for the meshcore-hashtag-cracker repository.

The repository's orchestrator (`cracker.ts`), portable brute-force backend
(`cpu-bruteforce.ts`) and public documentation are embedded below as pure
Lean functions.  The cryptographic primitives (SHA-256 key derivation,
channel hashing, MAC verification, decryption) are external library calls
in the source; they are abstracted as a `CryptoModel` parameter.  The
candidate enumerator and the plausibility filters live in `core.ts`, which
is not part of the sources available here; those functions are modelled
from the specification and are marked as such in their doc comments.

JavaScript runtime behaviour that the code relies on (string `trim`,
`toLowerCase`, `split`, `parseInt(hex)`, `toString(16)`, truthiness of
strings) is modelled on the ASCII fragment actually exercised by the
repository.
-/

set_option maxRecDepth 8000

namespace MeshCrack

/-! ## JavaScript string helpers (ASCII fragment) -/

/-- ASCII lower-casing of one character, the fragment of JavaScript
`toLowerCase` exercised by the repository. -/
def charToLower (c : Char) : Char :=
  if 'A' ≤ c ∧ c ≤ 'Z' then Char.ofNat (c.toNat + 32) else c

/-- JavaScript `toLowerCase` on ASCII strings. -/
def sToLower (s : String) : String := String.mk (s.toList.map charToLower)

/-- Characters treated as whitespace by JavaScript `trim` / `\s`
(ASCII fragment). -/
def isJsSpace (c : Char) : Bool :=
  c = ' ' || c = '\t' || c = '\n' || c = '\r' || c = '\x0b' || c = '\x0c'

/-- JavaScript `trim` on ASCII strings. -/
def sTrim (s : String) : String :=
  String.mk (((s.toList.dropWhile isJsSpace).reverse.dropWhile isJsSpace).reverse)

/-- Hex digit test, `[0-9a-fA-F]`. -/
def isHexChar (c : Char) : Bool :=
  (('0' ≤ c) && (c ≤ '9')) || (('a' ≤ c) && (c ≤ 'f')) || (('A' ≤ c) && (c ≤ 'F'))

/-- Value of a hex digit. -/
def hexVal (c : Char) : Nat :=
  if ('0' ≤ c) && (c ≤ '9') then c.toNat - '0'.toNat
  else if ('a' ≤ c) && (c ≤ 'f') then 10 + (c.toNat - 'a'.toNat)
  else 10 + (c.toNat - 'A'.toNat)

/-- JavaScript `parseInt(s, 16)` as used by the repository: the strings it
is applied to are hash bytes in plain hex, so the model parses the whole
string and returns `none` (JavaScript `NaN`) if it is empty or contains a
non-hex character. -/
def jsParseIntHex (s : String) : Option Nat :=
  let cs := s.toList
  if cs.isEmpty || !(cs.all isHexChar) then none
  else some (cs.foldl (fun a c => 16 * a + hexVal c) 0)

/-- JavaScript `===` on two numbers that may be `NaN` (`NaN` is equal to
nothing, including itself). -/
def jsNumEq (a b : Option Nat) : Bool :=
  match a, b with
  | some x, some y => x == y
  | _, _ => false

/-- Hex digit characters, least value first. -/
def hexDigitsStr : String := "0123456789abcdef"

/-- Lower-case hex digit of a value below 16. -/
def hexDigitOf (n : Nat) : Char := List.getD (String.toList hexDigitsStr) n 'x'

/-- Hex-digit helper, structurally recursive on a fuel bound so that the
kernel can evaluate it; the fuel is always at least the digit count at
the call site. -/
def natHexDigitsAux : Nat → Nat → List Nat
  | 0, _ => []
  | fuel + 1, n => if n < 16 then [n] else natHexDigitsAux fuel (n / 16) ++ [n % 16]

/-- Hex digit list of a number, most significant first (no leading zeros,
`[0]` for zero), as produced by JavaScript `toString(16)`. -/
def natHexDigits (n : Nat) : List Nat :=
  if n = 0 then [0] else natHexDigitsAux n n

/-- JavaScript `n.toString(16)` for a non-negative number. -/
def natToHexStr (n : Nat) : String := String.mk ((natHexDigits n).map hexDigitOf)

/-- The string `"NaN"` produced by JavaScript `NaN.toString(16)`. -/
def nanStr : String := String.mk ['N', 'a', 'N']

/-- `targetChannelHash.toString(16).padStart(2, '0')` from
`cpu-bruteforce.ts`, for a number that may be `NaN`. -/
def jsToHex2 (a : Option Nat) : String :=
  match a with
  | none => nanStr
  | some n =>
    let ds := (natHexDigits n).map hexDigitOf
    String.mk (if ds.length < 2 then List.replicate (2 - ds.length) '0' ++ ds else ds)

/-! ## Candidate enumerator (modelled from the spec)

`core.ts` is not among the available sources; the enumerator is modelled
from spec §4.1: 36 boundary glyphs `a-z0-9`, 37 interior glyphs (adding
`-`), mixed-radix indexing with the simple product count, and a `none`
result for gap indices whose decoded string contains `--`. -/

/-- The 37 glyphs in enumeration order; the first 36 are the boundary
glyphs. -/
def alphabetStr : String := "abcdefghijklmnopqrstuvwxyz0123456789-"

/-- The interior glyph alphabet as a list. -/
def interiorGlyphs : List Char := String.toList alphabetStr

/-- Enumeration position of a glyph (37 = not a glyph). -/
def glyphIdx (c : Char) : Nat := List.indexOf c interiorGlyphs

/-- Glyph at an enumeration position. -/
def glyphOfIdx (g : Nat) : Char := List.getD interiorGlyphs g '-'

/-- No two adjacent dashes (glyph 36) in a glyph-index list. -/
def noAdjDash : List Nat → Bool
  | [] => true
  | [_] => true
  | a :: b :: t => !(a == 36 && b == 36) && noAdjDash (b :: t)

/-- Glyph-index lists of legal room names: non-empty, boundary glyphs at
both ends, interior glyphs between, no two adjacent dashes. -/
def legalGlyphs : List Nat → Bool
  | [] => false
  | [g] => decide (g < 36)
  | g :: t =>
    decide (g < 36) && t.all (fun d => decide (d < 37)) &&
      decide (t.getLastD 37 < 36) && noAdjDash (g :: t)

/-- The room-name grammar of spec §3 / claim C8: alphabet `a-z0-9-`, no
dash at the first or last position, no two adjacent dashes, non-empty. -/
def isLegalRoomName (s : String) : Bool := legalGlyphs (s.toList.map glyphIdx)

/-- Modelled from the spec: `countNamesForLength` from `core.ts` (absent
here).  Simple-product convention of §4.1: 36 names of length 1, and
`36·37^(L-2)·36` for longer lengths (forbidden names are gap indices). -/
def countNamesForLength (L : Nat) : Nat :=
  if L = 0 then 0 else if L = 1 then 36 else 36 * 37 ^ (L - 2) * 36

/-- Value of a most-significant-first digit list in base `b`. -/
def digitsToNat (b : Nat) (ds : List Nat) : Nat :=
  ds.foldl (fun a d => b * a + d) 0

/-- The `len` least-significant base-`b` digits of `n`, most significant
first. -/
def natToDigits (b : Nat) : Nat → Nat → List Nat
  | 0, _ => []
  | len + 1, n => natToDigits b len (n / b) ++ [n % b]

/-- Modelled from the spec: `indexToRoomName` from `core.ts` (absent
here).  Mixed-radix decoding (first and last digit base 36, interior
digits base 37); `none` for out-of-range indices and for gap indices
whose decoded string contains `--`. -/
def indexToRoomName (L i : Nat) : Option String :=
  if L = 0 then none
  else if L = 1 then
    if i < 36 then some (String.mk [glyphOfIdx i]) else none
  else if i < countNamesForLength L then
    let gs := natToDigits 37 (L - 1) (i / 36) ++ [i % 36]
    if noAdjDash gs then some (String.mk (gs.map glyphOfIdx)) else none
  else none

/-- List-level body of `roomNameToIndex`. -/
def roomNameToIndexL (cs : List Char) : Option (Nat × Nat) :=
  let gs := cs.map glyphIdx
  if legalGlyphs gs then
    if cs.length = 1 then some (1, gs.headD 0)
    else some (cs.length, digitsToNat 37 gs.dropLast * 36 + gs.getLastD 0)
  else none

/-- Modelled from the spec: `roomNameToIndex` from `core.ts` (absent
here), the inverse of `indexToRoomName`; `none` on strings that are not
legal room names. -/
def roomNameToIndex (s : String) : Option (Nat × Nat) := roomNameToIndexL s.toList

/-! ### Digit-list arithmetic lemmas -/

theorem foldl_digits_init (b : Nat) (ds : List Nat) (a : Nat) :
    List.foldl (fun x d => b * x + d) a ds = a * b ^ ds.length + digitsToNat b ds := by
  induction ds generalizing a with
  | nil => simp [digitsToNat]
  | cons d t ih =>
    simp only [List.foldl_cons, List.length_cons, digitsToNat]
    rw [ih (b * a + d), ih (b * 0 + d)]
    ring

theorem digitsToNat_append_digit (b : Nat) (ds : List Nat) (d : Nat) :
    digitsToNat b (ds ++ [d]) = b * digitsToNat b ds + d := by
  simp [digitsToNat, List.foldl_append]

theorem digitsToNat_cons (b : Nat) (d : Nat) (ds : List Nat) :
    digitsToNat b (d :: ds) = d * b ^ ds.length + digitsToNat b ds := by
  simpa [digitsToNat] using foldl_digits_init b ds (b * 0 + d)

theorem digitsToNat_lt (b : Nat) (ds : List Nat) (hb : 0 < b)
    (h : ∀ d ∈ ds, d < b) : digitsToNat b ds < b ^ ds.length := by
  induction ds using List.reverseRecOn with
  | nil => simpa [digitsToNat] using Nat.one_pos
  | append_singleton t d ih =>
    have hd : d < b := h d (by simp)
    have ht : digitsToNat b t < b ^ t.length := ih (fun x hx => h x (by simp [hx]))
    rw [digitsToNat_append_digit]
    calc b * digitsToNat b t + d < b * digitsToNat b t + b := by omega
    _ = b * (digitsToNat b t + 1) := by ring
    _ ≤ b * b ^ t.length := Nat.mul_le_mul_left b (by omega)
    _ = b ^ (t ++ [d]).length := by
        simp [pow_succ, Nat.mul_comm]

theorem natToDigits_digitsToNat (b : Nat) (ds : List Nat) (hb : 0 < b)
    (h : ∀ d ∈ ds, d < b) :
    natToDigits b ds.length (digitsToNat b ds) = ds := by
  induction ds using List.reverseRecOn with
  | nil => simp [natToDigits, digitsToNat]
  | append_singleton t d ih =>
    have hd : d < b := h d (by simp)
    have ht := ih (fun x hx => h x (by simp [hx]))
    rw [digitsToNat_append_digit]
    have hlen : (t ++ [d]).length = t.length + 1 := by simp
    rw [hlen, natToDigits]
    have hdiv : (b * digitsToNat b t + d) / b = digitsToNat b t := by
      rw [Nat.mul_add_div hb]
      simp [Nat.div_eq_of_lt hd]
    have hmod : (b * digitsToNat b t + d) % b = d := by
      rw [Nat.mul_add_mod]
      exact Nat.mod_eq_of_lt hd
    rw [hdiv, hmod, ht]

/-! ### Glyph lemmas -/

theorem glyphOfIdx_glyphIdx {c : Char} (h : glyphIdx c < 37) :
    glyphOfIdx (glyphIdx c) = c := by
  have h2 : List.indexOf c interiorGlyphs < interiorGlyphs.length := by
    have hlen : interiorGlyphs.length = 37 := by decide
    rw [hlen]; exact h
  unfold glyphOfIdx glyphIdx
  rw [List.getD_eq_getElem _ _ h2, List.getElem_indexOf]

theorem map_glyph_inverse (cs : List Char) (h : ∀ c ∈ cs, glyphIdx c < 37) :
    (cs.map glyphIdx).map glyphOfIdx = cs := by
  induction cs with
  | nil => simp
  | cons c t ih =>
    simp only [List.map_cons, List.cons.injEq]
    exact ⟨glyphOfIdx_glyphIdx (h c (by simp)), ih fun x hx => h x (by simp [hx])⟩

/-! ### Round-trip of the enumerator (claim C8) -/

theorem roomNameToIndexL_eq_some (cs : List Char)
    (h : legalGlyphs (cs.map glyphIdx) = true) :
    ∃ i, roomNameToIndexL cs = some (cs.length, i) ∧
      indexToRoomName cs.length i = some (String.mk cs) := by
  rcases cs with _ | ⟨c, _ | ⟨c2, t⟩⟩
  · exfalso
    simp [legalGlyphs] at h
  · -- length-1 name
    simp only [List.map_cons, List.map_nil, legalGlyphs, decide_eq_true_eq] at h
    refine ⟨glyphIdx c, ?_, ?_⟩
    · unfold roomNameToIndexL
      simp only [List.map_cons, List.map_nil, List.length_cons, List.length_nil]
      rw [if_pos (by simp [legalGlyphs, h]), if_pos (by simp)]
      simp
    · simp only [List.length_cons, List.length_nil, Nat.zero_add]
      unfold indexToRoomName
      rw [if_neg (by omega), if_pos rfl, if_pos h]
      rw [glyphOfIdx_glyphIdx (by omega)]
  · -- length ≥ 2
    have hL : (c :: c2 :: t).length = t.length + 2 := by simp
    -- unpack legality
    simp only [List.map_cons, legalGlyphs, Bool.and_eq_true, decide_eq_true_eq,
      List.all_eq_true] at h
    obtain ⟨⟨⟨hg, hall⟩, hlast⟩, hdash⟩ := h
    set gs : List Nat := glyphIdx c :: glyphIdx c2 :: List.map glyphIdx t with hgs
    have hgs_ne : gs ≠ [] := by simp [hgs]
    have hallgs : ∀ d ∈ gs, d < 37 := by
      intro d hd
      rw [hgs] at hd
      rcases List.mem_cons.mp hd with h1 | h2
      · omega
      · exact hall d (by simpa using h2)
    -- the last digit
    have hlastD : gs.getLastD 0 = (glyphIdx c2 :: List.map glyphIdx t).getLastD 37 := by
      simp only [hgs, List.getLastD_cons]
    have hlast36 : gs.getLastD 0 < 36 := by rw [hlastD]; exact hlast
    have hlast_eq : gs.getLastD 0 = gs.getLast hgs_ne := by
      rw [List.getLastD_eq_getLast?, List.getLast?_eq_getLast gs hgs_ne]
      rfl
    -- the leading digits
    have hdrop : gs.dropLast = glyphIdx c :: (glyphIdx c2 :: List.map glyphIdx t).dropLast := by
      rw [hgs, List.dropLast_cons₂]
    have hdroplen : gs.dropLast.length = t.length + 1 := by
      rw [List.length_dropLast, hgs]; simp
    have hdropall : ∀ d ∈ gs.dropLast, d < 37 :=
      fun d hd => hallgs d (List.dropLast_subset gs hd)
    have htail_all : ∀ d ∈ (glyphIdx c2 :: List.map glyphIdx t).dropLast, d < 37 := by
      intro d hd
      rw [hdrop] at hdropall
      exact hdropall d (by simp [hd])
    have htail_len : (glyphIdx c2 :: List.map glyphIdx t).dropLast.length = t.length := by
      rw [List.length_dropLast]; simp
    set D : Nat := digitsToNat 37 gs.dropLast with hD
    have hDlt : D < 36 * 37 ^ t.length := by
      have h1 : digitsToNat 37 (glyphIdx c2 :: List.map glyphIdx t).dropLast
          < 37 ^ t.length := by
        have := digitsToNat_lt 37 (glyphIdx c2 :: List.map glyphIdx t).dropLast
          (by omega) htail_all
        rwa [htail_len] at this
      rw [hD, hdrop, digitsToNat_cons, htail_len]
      have hgle : glyphIdx c ≤ 35 := by omega
      have h2 : glyphIdx c * 37 ^ t.length ≤ 35 * 37 ^ t.length :=
        Nat.mul_le_mul_right _ hgle
      have h3 : (0:Nat) < 37 ^ t.length := Nat.pos_pow_of_pos _ (by omega)
      omega
    set i : Nat := D * 36 + gs.getLastD 0 with hi
    have hcount : countNamesForLength (t.length + 2) = 36 * 37 ^ t.length * 36 := by
      unfold countNamesForLength
      simp
    have hilt : i < countNamesForLength (t.length + 2) := by
      rw [hcount, hi]
      omega
    have hlegB : legalGlyphs gs = true := by
      rw [hgs]
      simp only [legalGlyphs, Bool.and_eq_true, decide_eq_true_eq, List.all_eq_true]
      refine ⟨⟨⟨hg, hall⟩, hlast⟩, ?_⟩
      rw [hgs] at hdash
      exact hdash
    refine ⟨i, ?_, ?_⟩
    · unfold roomNameToIndexL
      simp only [List.map_cons, ← hgs]
      rw [if_pos hlegB, if_neg (by simp)]
    · rw [hL]
      unfold indexToRoomName
      rw [if_neg (by omega), if_neg (by omega), if_pos hilt]
      have hdiv : i / 36 = D := by
        rw [hi, Nat.mul_comm, Nat.mul_add_div (by omega)]
        rw [Nat.div_eq_of_lt hlast36]
        omega
      have hmod : i % 36 = gs.getLastD 0 := by
        rw [hi, Nat.mul_comm, Nat.mul_add_mod]
        exact Nat.mod_eq_of_lt hlast36
      have hdigits : natToDigits 37 (t.length + 2 - 1) (i / 36) = gs.dropLast := by
        rw [hdiv, hD]
        have := natToDigits_digitsToNat 37 gs.dropLast (by omega) hdropall
        rwa [hdroplen] at this
      rw [hdigits, hmod]
      have hrecons : gs.dropLast ++ [gs.getLastD 0] = gs := by
        rw [hlast_eq]
        exact List.dropLast_append_getLast hgs_ne
      rw [hrecons, if_pos hdash]
      have hmapgs : gs = (c :: c2 :: t).map glyphIdx := by rw [hgs]; simp
      rw [hmapgs, map_glyph_inverse (c :: c2 :: t) ?hchars]
      case hchars =>
        intro x hx
        have : glyphIdx x ∈ gs := by
          rw [hmapgs]
          exact List.mem_map_of_mem glyphIdx hx
        exact hallgs _ this

/-- Claim C8: every legal room name round-trips through the enumerator. -/
theorem roomName_roundtrip (s : String) (h : isLegalRoomName s = true) :
    ∃ i, roomNameToIndex s = some (s.length, i) ∧
      indexToRoomName s.length i = some s := by
  have hmk : String.mk s.toList = s := rfl
  have hlength : s.length = s.toList.length := rfl
  have hlist := roomNameToIndexL_eq_some s.toList h
  rw [hmk] at hlist
  rw [roomNameToIndex, hlength]
  exact hlist

/-! ## Word-list filtering (`cracker.ts` lines 26-83) -/

/-- The character class `[a-z0-9]` of the `NO_DASH_AT_ENDS` regex (the
boundary glyphs). -/
def boundaryStr : String := "abcdefghijklmnopqrstuvwxyz0123456789"

/-- The boundary glyphs as a list. -/
def boundaryGlyphs : List Char := String.toList boundaryStr

/-- The `NO_CONSECUTIVE_DASHES` regex `--`. -/
def hasConsecDashes : List Char → Bool
  | [] => false
  | [_] => false
  | a :: b :: t => (a == '-' && b == '-') || hasConsecDashes (b :: t)

/-- List-level body of `isValidRoomName` (`cracker.ts` lines 31-37):
reject empty names, names with characters outside `[a-z0-9-]`, names of
length above one whose first or last character is not in `[a-z0-9]`, and
names containing `--`. -/
def isValidRoomNameL (cs : List Char) : Bool :=
  !cs.isEmpty
    && cs.all (fun c => decide (c ∈ interiorGlyphs))
    && (!decide (1 < cs.length)
        || (decide (cs.headD '-' ∈ boundaryGlyphs)
            && decide (cs.getLastD '-' ∈ boundaryGlyphs)))
    && !hasConsecDashes cs

/-- `isValidRoomName` from `cracker.ts`. -/
def isValidRoomName (s : String) : Bool := isValidRoomNameL s.toList

/-- `GroupTextCracker.setWordlist`: trim and lower-case each word, then
keep only the valid room names. -/
def setWordlist (words : List String) : List String :=
  (words.map (fun w => sToLower (sTrim w))).filter isValidRoomName

/-- JavaScript `text.split('\n')` on character lists. -/
def splitNl : List Char → List (List Char)
  | [] => [[]]
  | c :: t =>
    let r := splitNl t
    if c = '\n' then [] :: r
    else (c :: r.headD []) :: r.tail

/-- The word extraction of `GroupTextCracker.loadWordlist` (lines 64-71):
split the fetched text on newlines, trim and lower-case, drop empty
lines, then keep only the valid room names.  The network fetch itself is
external to the sources. -/
def loadWordlistWords (text : String) : List String :=
  let allWords := ((splitNl text.toList).map
      (fun cs => sToLower (sTrim (String.mk cs)))).filter
    (fun w => decide (0 < w.length))
  allWords.filter isValidRoomName

/-! ### Relating the regex filter to the enumerator grammar -/

theorem glyphIdx_lt_37_iff (c : Char) : glyphIdx c < 37 ↔ c ∈ interiorGlyphs := by
  have hlen : interiorGlyphs.length = 37 := by decide
  rw [← hlen]
  exact List.indexOf_lt_length

theorem glyphIdx_lt_36_iff (c : Char) : glyphIdx c < 36 ↔ c ∈ boundaryGlyphs := by
  constructor
  · intro h
    have hc : glyphOfIdx (glyphIdx c) = c := glyphOfIdx_glyphIdx (by omega)
    have hmem : ∀ g, g < 36 → glyphOfIdx g ∈ boundaryGlyphs := by decide
    rw [← hc]
    exact hmem _ h
  · intro h
    have hb : ∀ x ∈ boundaryGlyphs, glyphIdx x < 36 := by decide
    exact hb c h

theorem glyphIdx_eq_36_iff (c : Char) : glyphIdx c = 36 ↔ c = '-' := by
  constructor
  · intro h
    have hc : glyphOfIdx (glyphIdx c) = c := glyphOfIdx_glyphIdx (by omega)
    rw [h] at hc
    rw [← hc]
    decide
  · intro h
    subst h
    decide

theorem noAdjDash_map_glyphIdx (cs : List Char) :
    noAdjDash (cs.map glyphIdx) = !hasConsecDashes cs := by
  induction cs with
  | nil => rfl
  | cons a t ih =>
    cases t with
    | nil => rfl
    | cons b t2 =>
      rw [List.map_cons] at ih
      simp only [List.map_cons, noAdjDash, hasConsecDashes]
      have ha : (glyphIdx a == 36) = (a == '-') := by
        by_cases h : a = '-'
        · subst h; decide
        · have h2 : glyphIdx a ≠ 36 := fun hh => h ((glyphIdx_eq_36_iff a).mp hh)
          simp [h, h2]
      have hb : (glyphIdx b == 36) = (b == '-') := by
        by_cases h : b = '-'
        · subst h; decide
        · have h2 : glyphIdx b ≠ 36 := fun hh => h ((glyphIdx_eq_36_iff b).mp hh)
          simp [h, h2]
      rw [ha, hb, ih, Bool.not_or]

/-- The source filter accepts exactly the grammar-legal names plus the
single-character name `-` (the end-dash regex is only applied to names
longer than one character). -/
theorem isValidRoomNameL_legal (cs : List Char) (h : isValidRoomNameL cs = true) :
    legalGlyphs (cs.map glyphIdx) = true ∨ cs = ['-'] := by
  simp only [isValidRoomNameL, Bool.and_eq_true, Bool.or_eq_true, Bool.not_eq_true',
    decide_eq_true_eq, List.all_eq_true, decide_eq_false_iff_not] at h
  obtain ⟨⟨⟨_, hall⟩, hends⟩, hconsec⟩ := h
  rcases cs with _ | ⟨a, _ | ⟨b, t⟩⟩
  · simp at *
  · -- singleton
    by_cases hd : a = '-'
    · right; rw [hd]
    · left
      simp only [List.map_cons, List.map_nil, legalGlyphs, decide_eq_true_eq]
      have h37 : glyphIdx a < 37 := (glyphIdx_lt_37_iff a).mpr (hall a (by simp))
      have h36 : glyphIdx a ≠ 36 := fun hh => hd ((glyphIdx_eq_36_iff a).mp hh)
      omega
  · -- length at least two
    left
    have hlong : 1 < (a :: b :: t).length := by simp
    rcases hends with hends | hends
    · omega
    obtain ⟨hhead, hlast⟩ := hends
    have hne : (b :: t) ≠ [] := by simp
    have hne2 : List.map glyphIdx (b :: t) ≠ [] := by simp
    simp only [List.map_cons, legalGlyphs, Bool.and_eq_true, decide_eq_true_eq,
      List.all_eq_true]
    refine ⟨⟨⟨?_, ?_⟩, ?_⟩, ?_⟩
    · -- first glyph is a boundary glyph
      have : (a :: b :: t).headD '-' = a := rfl
      rw [this] at hhead
      exact (glyphIdx_lt_36_iff a).mpr hhead
    · -- every glyph is an interior glyph
      intro d hd
      rw [show (glyphIdx b :: List.map glyphIdx t) = List.map glyphIdx (b :: t) from rfl]
        at hd
      obtain ⟨x, hx, rfl⟩ := List.mem_map.mp hd
      exact (glyphIdx_lt_37_iff x).mpr (hall x (by simp [hx]))
    · -- last glyph is a boundary glyph
      have h1 : (glyphIdx b :: List.map glyphIdx t).getLastD 37
          = (List.map glyphIdx (b :: t)).getLast hne2 := by
        rw [show (glyphIdx b :: List.map glyphIdx t) = List.map glyphIdx (b :: t) from rfl,
          List.getLastD_eq_getLast?, List.getLast?_eq_getLast _ hne2]
        rfl
      have h2 : (a :: b :: t).getLastD '-' = (b :: t).getLast hne := by
        rw [List.getLastD_cons, List.getLastD_eq_getLast?, List.getLast?_eq_getLast _ hne]
        rfl
      rw [h1, List.getLast_map]
      rw [h2] at hlast
      exact (glyphIdx_lt_36_iff _).mpr hlast
    · -- no adjacent dashes
      have := noAdjDash_map_glyphIdx (a :: b :: t)
      rw [hconsec] at this
      simpa using this

/-! ### Claim C9 -/

/-- A single dash, the one word the source filter accepts although it
violates the room-name grammar. -/
def dashStr : String := String.mk ['-']

/-- Counterexample to claim C9 as stated: `setWordlist ["-"]` stores the
word `"-"`, which has a leading (and trailing) dash and therefore fails
the room-name grammar. -/
theorem setWordlist_stores_dash :
    setWordlist [dashStr] = [dashStr] ∧ isLegalRoomName dashStr = false := by
  constructor
  · decide
  · decide

/-- Claim C9, amended: a word is stored by `setWordlist` (resp. produced
by the `loadWordlist` extraction) iff it is the trimmed, lower-cased form
of an input word (resp. of an input line, non-empty) that passes the
source filter `isValidRoomName`; every stored word either satisfies the
room-name grammar or is the single-character word `"-"`, which the
filter's length-guarded end-dash test lets through. -/
theorem wordlist_filter_spec (ws : List String) (text : String) (w : String) :
    (w ∈ setWordlist ws ↔
      ((∃ v ∈ ws, w = sToLower (sTrim v)) ∧ isValidRoomName w = true)) ∧
    (w ∈ loadWordlistWords text ↔
      ((∃ cs ∈ splitNl text.toList, w = sToLower (sTrim (String.mk cs))) ∧
        0 < w.length ∧ isValidRoomName w = true)) ∧
    (isValidRoomName w = true → isLegalRoomName w = true ∨ w = dashStr) := by
  refine ⟨?_, ?_, ?_⟩
  · rw [setWordlist, List.mem_filter, List.mem_map]
    constructor
    · rintro ⟨⟨v, hv, rfl⟩, hvalid⟩
      exact ⟨⟨v, hv, rfl⟩, hvalid⟩
    · rintro ⟨⟨v, hv, rfl⟩, hvalid⟩
      exact ⟨⟨v, hv, rfl⟩, hvalid⟩
  · rw [loadWordlistWords, List.mem_filter, List.mem_filter, List.mem_map]
    constructor
    · rintro ⟨⟨⟨cs, hcs, rfl⟩, hlen⟩, hvalid⟩
      exact ⟨⟨cs, hcs, rfl⟩, by simpa using hlen, hvalid⟩
    · rintro ⟨⟨cs, hcs, rfl⟩, hlen, hvalid⟩
      exact ⟨⟨⟨cs, hcs, rfl⟩, by simpa using hlen⟩, hvalid⟩
  · intro hvalid
    rcases isValidRoomNameL_legal w.toList hvalid with h | h
    · left; exact h
    · right
      have : String.mk w.toList = String.mk ['-'] := by rw [h]
      rwa [show String.mk w.toList = w from rfl] at this

/-- The name `ab-cd` used to instantiate the round-trip theorem. -/
def abDashCdStr : String := String.mk ['a', 'b', '-', 'c', 'd']

/-- Witness for claim C8 at the concrete legal name `ab-cd`. -/
theorem roomName_roundtrip_witness :
    isLegalRoomName abDashCdStr = true ∧
      ∃ i, roomNameToIndex abDashCdStr = some (abDashCdStr.length, i) ∧
        indexToRoomName abDashCdStr.length i = some abDashCdStr :=
  ⟨by decide, roomName_roundtrip abDashCdStr (by decide)⟩

/-! ## Abstract cryptographic primitives -/

/-- Payload of `ChannelCrypto.decryptGroupTextMessage` when decryption
succeeds: the decoded timestamp and message text. -/
structure DecryptedData where
  timestamp : Int
  message : String
deriving DecidableEq

/-- The external cryptographic primitives used by the cracker (SHA-256
key derivation, channel hashing, MAC verification, decryption — spec §1
lists them as out-of-scope library functions), together with the current
wall-clock time read by the timestamp filter.  All are abstracted as
pure functions. -/
structure CryptoModel where
  deriveKeyFromRoomName : String → String
  getChannelHash : String → String
  verifyMac : String → String → String → Bool
  decryptGroupTextMessage : String → String → String → Option DecryptedData
  nowSeconds : Int

/-- Modelled from the spec: `isTimestampValid` from `core.ts` (absent
here); §4.4 and testable property 6: the decrypted timestamp must lie
within `[now - validSeconds, now + validSeconds]`. -/
def isTimestampValid (now ts : Int) (validSeconds : Nat) : Bool :=
  decide (now - validSeconds ≤ ts ∧ ts ≤ now + validSeconds)

/-- The Unicode replacement character `U+FFFD`. -/
def replacementChar : Char := Char.ofNat 65533

/-- Modelled from the spec: `isValidUtf8` from `core.ts` (absent here);
§4.4: reject a decoded message containing `U+FFFD`. -/
def isValidUtf8 (s : String) : Bool := !s.toList.any (fun c => c == replacementChar)

/-- JavaScript truthiness of an optional string (both `undefined` and
the empty string are falsy). -/
def jsTruthy (s : Option String) : Bool :=
  match s with
  | none => false
  | some t => !t.toList.isEmpty

/-- The empty string. -/
def emptyStr : String := String.mk []

/-- The `'#'` prefix prepended to room names before key derivation. -/
def hashMarkStr : String := String.mk ['#']

/-! ## Portable batch executor (`cpu-bruteforce.ts`) -/

/-- `CpuBruteForce.runBatch` (`cpu-bruteforce.ts` lines 20-61): walk the
candidate indices `batchOffset … batchOffset+batchSize-1`, skip gap
indices, keep those whose derived key matches the target channel hash
and — when a ciphertext and MAC were supplied and are truthy — whose MAC
verifies.  The absolute index `nameIdx = batchOffset + i` is pushed into
the result list. -/
def runBatch (C : CryptoModel) (targetChannelHash : Option Nat)
    (nameLength batchOffset batchSize : Nat)
    (ciphertextHex targetMacHex : Option String) : List Nat :=
  let targetHashHex := jsToHex2 targetChannelHash
  let verifyMacEnabled := jsTruthy ciphertextHex && jsTruthy targetMacHex
  (List.range batchSize).filterMap (fun i =>
    let nameIdx := batchOffset + i
    match indexToRoomName nameLength nameIdx with
    | none => none
    | some roomName =>
      let key := C.deriveKeyFromRoomName (hashMarkStr ++ roomName)
      let channelHash := C.getChannelHash key
      if channelHash ≠ targetHashHex then none
      else if verifyMacEnabled
          && !(C.verifyMac (ciphertextHex.getD emptyStr) (targetMacHex.getD emptyStr) key) then
        none
      else some nameIdx)

/-- Membership in a `runBatch` result: exactly the absolute indices
`batchOffset + i` of the batch whose decoded name is legal, whose key
matches the target hash byte, and whose MAC verifies when MAC checking
is enabled. -/
theorem runBatch_mem (C : CryptoModel) (target : Option Nat)
    (nameLength batchOffset batchSize : Nat) (ct mac : Option String) (m : Nat) :
    m ∈ runBatch C target nameLength batchOffset batchSize ct mac ↔
      ∃ i, i < batchSize ∧ m = batchOffset + i ∧
        ∃ name, indexToRoomName nameLength m = some name ∧
          C.getChannelHash (C.deriveKeyFromRoomName (hashMarkStr ++ name))
            = jsToHex2 target ∧
          ((jsTruthy ct && jsTruthy mac) = true →
            C.verifyMac (ct.getD emptyStr) (mac.getD emptyStr)
              (C.deriveKeyFromRoomName (hashMarkStr ++ name)) = true) := by
  rw [runBatch]
  simp only [List.mem_filterMap, List.mem_range]
  constructor
  · rintro ⟨i, hi, hf⟩
    rcases hdec : indexToRoomName nameLength (batchOffset + i) with _ | name
    · rw [hdec] at hf
      simp at hf
    · rw [hdec] at hf
      simp only at hf
      split_ifs at hf with h1 h2
      obtain rfl : batchOffset + i = m := by simpa using hf
      refine ⟨i, hi, rfl, name, hdec, by simpa using h1, ?_⟩
      intro henabled
      rw [henabled] at h2
      simpa using h2
  · rintro ⟨i, hi, rfl, name, hdec, hhash, hmac⟩
    refine ⟨i, hi, ?_⟩
    rw [hdec]
    simp only
    rw [if_neg (by simpa using hhash), if_neg ?hmacneg]
    case hmacneg =>
      cases henabled : (jsTruthy ct && jsTruthy mac) with
      | false => simp
      | true => simp [hmac henabled]

/-- A trivial crypto model: every key hashes to `"00"` and every MAC
verifies. -/
def trivCrypto : CryptoModel where
  deriveKeyFromRoomName := fun _ => emptyStr
  getChannelHash := fun _ => jsToHex2 (some 0)
  verifyMac := fun _ _ _ => true
  decryptGroupTextMessage := fun _ _ _ => some ⟨0, emptyStr⟩
  nowSeconds := 0

/-- Counterexample to claim C2 as stated: with `batchOffset = 1` and
`batchSize = 1`, the batch's only candidate (within-batch index `0`,
absolute index `1`, room name `b`) matches under `trivCrypto`, and the
executor returns the absolute index `1` — not the within-batch index
`0`; indeed `1` is not even a valid within-batch index. -/
theorem runBatch_returns_absolute_index :
    runBatch trivCrypto (some 0) 1 1 1 none none = [1] ∧
      runBatch trivCrypto (some 0) 1 1 1 none none ≠ [0] ∧ ¬(1 < 1) := by
  refine ⟨by decide, by decide, by omega⟩

/-! ### Hex printing and parsing agree -/

theorem natHexDigitsAux_spec (fuel : Nat) :
    ∀ n, n < 16 ^ fuel → 0 < n →
      digitsToNat 16 (natHexDigitsAux fuel n) = n ∧
        ∀ d ∈ natHexDigitsAux fuel n, d < 16 := by
  induction fuel with
  | zero =>
    intro n h1 h2
    simp at h1
    omega
  | succ fuel ih =>
    intro n h1 h2
    rw [natHexDigitsAux]
    by_cases h : n < 16
    · rw [if_pos h]
      refine ⟨by simp [digitsToNat], ?_⟩
      intro d hd
      simp at hd
      omega
    · rw [if_neg h]
      have hdiv_pos : 0 < n / 16 := Nat.div_pos (by omega) (by omega)
      have hdiv_lt : n / 16 < 16 ^ fuel := by
        rw [Nat.div_lt_iff_lt_mul (by omega)]
        calc n < 16 ^ (fuel + 1) := h1
        _ = 16 ^ fuel * 16 := by rw [pow_succ]
      obtain ⟨hval, hdig⟩ := ih (n / 16) hdiv_lt hdiv_pos
      constructor
      · rw [digitsToNat_append_digit, hval]
        omega
      · intro d hd
        rcases List.mem_append.mp hd with hd | hd
        · exact hdig d hd
        · simp at hd
          omega

theorem natHexDigits_spec (n : Nat) :
    digitsToNat 16 (natHexDigits n) = n ∧ ∀ d ∈ natHexDigits n, d < 16 := by
  rw [natHexDigits]
  by_cases h : n = 0
  · subst h
    rw [if_pos rfl]
    refine ⟨by simp [digitsToNat], ?_⟩
    intro d hd
    simp at hd
    omega
  · rw [if_neg h]
    exact natHexDigitsAux_spec n n (Nat.lt_pow_self (by omega) n) (by omega)

theorem natHexDigits_ne_nil (n : Nat) : natHexDigits n ≠ [] := by
  rw [natHexDigits]
  by_cases h : n = 0
  · simp [h]
  · rw [if_neg h]
    cases hn : n with
    | zero => omega
    | succ m =>
      rw [natHexDigitsAux]
      split <;> simp

theorem foldl_parse_map_hexDigitOf (ds : List Nat) (h : ∀ d ∈ ds, d < 16) :
    ∀ a, List.foldl (fun x c => 16 * x + hexVal c) a (ds.map hexDigitOf)
      = List.foldl (fun x d => 16 * x + d) a ds := by
  induction ds with
  | nil => intro a; rfl
  | cons d t ih =>
    intro a
    simp only [List.map_cons, List.foldl_cons]
    have hv : hexVal (hexDigitOf d) = d := by
      have hall : ∀ x, x < 16 → hexVal (hexDigitOf x) = x := by decide
      exact hall d (h d (by simp))
    rw [hv]
    exact ih (fun x hx => h x (by simp [hx])) _

theorem foldl_parse_zeros (k : Nat) :
    List.foldl (fun x c => 16 * x + hexVal c) 0 (List.replicate k '0') = 0 := by
  induction k with
  | zero => rfl
  | succ k ih =>
    rw [List.replicate_succ, List.foldl_cons]
    have hz : 16 * 0 + hexVal '0' = 0 := by decide
    rw [hz]
    exact ih

theorem jsParseIntHex_pad (k : Nat) (ns : List Nat) (hne : ns ≠ [])
    (h : ∀ d ∈ ns, d < 16) :
    jsParseIntHex (String.mk (List.replicate k '0' ++ ns.map hexDigitOf))
      = some (digitsToNat 16 ns) := by
  rw [jsParseIntHex]
  have htl : (String.mk (List.replicate k '0' ++ ns.map hexDigitOf)).toList
      = List.replicate k '0' ++ ns.map hexDigitOf := rfl
  simp only [htl]
  rw [if_neg ?hcond]
  case hcond =>
    have hne2 : (List.replicate k '0' ++ ns.map hexDigitOf) ≠ [] := by
      intro hcontra
      rcases List.append_eq_nil.mp hcontra with ⟨_, h2⟩
      exact hne (List.map_eq_nil_iff.mp h2)
    have hall : ∀ c ∈ List.replicate k '0' ++ ns.map hexDigitOf, isHexChar c = true := by
      intro c hc
      rcases List.mem_append.mp hc with hc | hc
      · rw [List.eq_of_mem_replicate hc]
        decide
      · obtain ⟨d, hd, rfl⟩ := List.mem_map.mp hc
        have hx : ∀ x, x < 16 → isHexChar (hexDigitOf x) = true := by decide
        exact hx d (h d hd)
    intro hcontra
    rw [Bool.or_eq_true] at hcontra
    rcases hcontra with hc | hc
    · exact hne2 (List.isEmpty_iff.mp hc)
    · rw [Bool.not_eq_true'] at hc
      rw [List.all_eq_true.mpr hall] at hc
      cases hc
  · rw [List.foldl_append, foldl_parse_zeros, foldl_parse_map_hexDigitOf ns h]
    rfl

theorem jsParseIntHex_jsToHex2 (b : Nat) : jsParseIntHex (jsToHex2 (some b)) = some b := by
  obtain ⟨hval, hdig⟩ := natHexDigits_spec b
  have hne := natHexDigits_ne_nil b
  show jsParseIntHex (String.mk
    (if ((natHexDigits b).map hexDigitOf).length < 2 then
      List.replicate (2 - ((natHexDigits b).map hexDigitOf).length) '0'
        ++ (natHexDigits b).map hexDigitOf
    else (natHexDigits b).map hexDigitOf)) = some b
  by_cases hlen : ((natHexDigits b).map hexDigitOf).length < 2
  · rw [if_pos hlen, jsParseIntHex_pad _ _ hne hdig, hval]
  · rw [if_neg hlen]
    have hpad := jsParseIntHex_pad 0 (natHexDigits b) hne hdig
    rw [List.replicate_zero, List.nil_append] at hpad
    rw [hpad, hval]

theorem jsParseIntHex_nanStr : jsParseIntHex nanStr = none := by decide

/-! ## The orchestrator (`cracker.ts`) -/

/-- The two resume kinds. -/
inductive ResumeType where
  | dictionary
  | bruteforce
deriving DecidableEq

/-- `CrackResult` (`cracker.ts` lines 586-614); optional fields default
to absent. -/
structure CrackResult where
  found : Bool
  roomName : Option String := none
  key : Option String := none
  decryptedMessage : Option String := none
  aborted : Bool := false
  resumeFrom : Option String := none
  resumeType : Option ResumeType := none
  error : Option String := none
deriving DecidableEq

/-- `PUBLIC_ROOM_NAME`, the display name `[[public room]]` of the
well-known public channel. -/
def PUBLIC_ROOM_NAME : String :=
  String.mk ['[', '[', 'p', 'u', 'b', 'l', 'i', 'c', ' ', 'r', 'o', 'o', 'm', ']', ']']

/-- Modelled from the spec: `PUBLIC_KEY` from `core.ts` (absent here),
the well-known key of the public room.  Its concrete hex value is
immaterial here because all key handling is abstract, so a fixed
placeholder string stands in for it. -/
def PUBLIC_KEY : String := String.mk ['p', 'u', 'b', 'l', 'i', 'c', '-', 'k', 'e', 'y']

/-- `DEFAULT_VALID_SECONDS` (30 days). -/
def DEFAULT_VALID_SECONDS : Nat := 2592000

/-- `CrackOptions` with the defaults applied by `crack` (lines 150-157).
`forceCpu` and `gpuDispatchMs` are omitted: the embedding covers the
portable-backend execution path, where neither has any effect on the
result. -/
structure CrackOptions where
  maxLength : Nat := 8
  startingLength : Nat := 1
  useDictionary : Bool := true
  useTimestampFilter : Bool := true
  validSeconds : Nat := DEFAULT_VALID_SECONDS
  useUtf8Filter : Bool := true
  startFrom : Option String := none
  startFromType : ResumeType := ResumeType.bruteforce
deriving DecidableEq

/-- `DecodedPacket` (lines 619-631). -/
structure DecodedPacket where
  channelHash : String
  ciphertext : String
  cipherMac : String
  isGroupText : Bool
deriving DecidableEq

/-- The optional fields of `decoded.payload?.decoded` produced by the
external `MeshCorePacketDecoder`. -/
structure RawPayload where
  channelHash : Option String := none
  ciphertext : Option String := none
  cipherMac : Option String := none

/-- The external frame decoder, abstracted: `none` models both a decode
exception and a non-GroupText frame. -/
def Decoder : Type := String → Option RawPayload

/-- The parse-error message of `crack` (line 165). -/
def invalidPacketMsg : String := "Invalid packet or not a GroupText packet"

/-- Strip one leading `0x` / `0X` (`replace(/^0x/i, '')`). -/
def strip0x (cs : List Char) : List Char :=
  match cs with
  | '0' :: x :: t => if x = 'x' ∨ x = 'X' then t else cs
  | _ => cs

/-- `GroupTextCracker.decodePacket` (lines 106-134): normalize the hex
string (trim, strip all whitespace, drop a leading `0x`), reject empty
or non-hex input, run the external decoder, and reject payloads lacking
a truthy channel hash, ciphertext or MAC. -/
def decodePacket (decoder : Decoder) (packetHex : String) : Option DecodedPacket :=
  let cleanHex := String.mk (strip0x ((sTrim packetHex).toList.filter (fun c => !isJsSpace c)))
  if cleanHex.toList.isEmpty || !(cleanHex.toList.all isHexChar) then none
  else
    match decoder cleanHex with
    | none => none
    | some payload =>
      if jsTruthy payload.channelHash && jsTruthy payload.ciphertext
          && jsTruthy payload.cipherMac then
        some ⟨payload.channelHash.getD emptyStr, payload.ciphertext.getD emptyStr,
          payload.cipherMac.getD emptyStr, true⟩
      else none

/-- The resume state computed by `crack` lines 194-224. -/
structure StartState where
  startFromLength : Nat
  startFromOffset : Nat
  dictionaryStartIndex : Nat
  skipDictionary : Bool
deriving DecidableEq

/-- Resume-position resolution (`crack` lines 194-224): a dictionary
cursor resumes the word list after the first occurrence of the word (or
from the start when absent); a brute-force cursor skips the dictionary
and resumes at the next index, rolling over to the next length on
overflow; a malformed brute-force cursor degrades to a fresh brute-force
start. -/
def resolveStart (wordlist : List String) (opts : CrackOptions) : StartState :=
  let base : StartState := ⟨opts.startingLength, 0, 0, false⟩
  match opts.startFrom with
  | none => base
  | some sf =>
    let normalizedStartFrom := sToLower sf
    match opts.startFromType with
    | ResumeType.dictionary =>
      let wordIndex := List.indexOf normalizedStartFrom wordlist
      if wordIndex < wordlist.length then
        { base with dictionaryStartIndex := wordIndex + 1 }
      else base
    | ResumeType.bruteforce =>
      let skip : StartState := { base with skipDictionary := true }
      match roomNameToIndex normalizedStartFrom with
      | none => skip
      | some (len, idx) =>
        let sl := max opts.startingLength len
        let so := idx + 1
        if so ≥ countNamesForLength sl then
          { skip with startFromLength := sl + 1, startFromOffset := 0 }
        else
          { skip with startFromLength := sl, startFromOffset := so }

/-- Everything a crack run carries: crypto, the decoded packet, options,
word list, abort schedule and resolved resume state. -/
structure CrackCtx where
  C : CryptoModel
  pkt : DecodedPacket
  opts : CrackOptions
  wl : List String
  abortAt : Option Nat
  rs : StartState

/-- The `k`-th read of the abort flag.  `abort()` is a monotone boolean
raised at an arbitrary moment, modelled as the index of the first read
that observes `true` (`none` = never raised). -/
def CrackCtx.flagRead (cx : CrackCtx) (k : Nat) : Bool :=
  match cx.abortAt with
  | none => false
  | some a => decide (a ≤ k)

/-- `targetHashByte = parseInt(channelHash, 16)` (line 169). -/
def CrackCtx.target (cx : CrackCtx) : Option Nat := jsParseIntHex cx.pkt.channelHash

/-- `verifyMacAndFilters` (lines 266-287): MAC check, decryption, then
the enabled timestamp and UTF-8 filters; returns validity and the
decrypted message. -/
def vmFilters (cx : CrackCtx) (key : String) : Bool × Option String :=
  if !cx.C.verifyMac cx.pkt.ciphertext cx.pkt.cipherMac key then (false, none)
  else
    match cx.C.decryptGroupTextMessage cx.pkt.ciphertext cx.pkt.cipherMac key with
    | none => (false, none)
    | some d =>
      if cx.opts.useTimestampFilter
          && !isTimestampValid cx.C.nowSeconds d.timestamp cx.opts.validSeconds then
        (false, none)
      else if cx.opts.useUtf8Filter && !isValidUtf8 d.message then (false, none)
      else (true, some d.message)

/-- The parse-error result (lines 164-166). -/
def parseErrorResult : CrackResult := { found := false, error := some invalidPacketMsg }

/-- The public-room success result (lines 296-303): no resume fields. -/
def publicSuccessResult (msg : Option String) : CrackResult :=
  { found := true, roomName := some PUBLIC_ROOM_NAME, key := some PUBLIC_KEY,
    decryptedMessage := msg }

/-- The dictionary abort result (lines 310-317). -/
def dictAbortResult (w : String) : CrackResult :=
  { found := false, aborted := true, resumeFrom := some w,
    resumeType := some ResumeType.dictionary }

/-- The dictionary success result (lines 325-335). -/
def dictSuccessResult (w key : String) (msg : Option String) : CrackResult :=
  { found := true, roomName := some w, key := some key, decryptedMessage := msg,
    resumeFrom := some w, resumeType := some ResumeType.dictionary }

/-- The brute-force abort result (lines 358-366 and 372-380):
`resumeFrom` is `undefined` when the offset is a gap index. -/
def bfAbortResult (length offset : Nat) : CrackResult :=
  { found := false, aborted := true, resumeFrom := indexToRoomName length offset,
    resumeType := some ResumeType.bruteforce }

/-- The brute-force success result (lines 429-439). -/
def bfSuccessResult (name key : String) (msg : Option String) : CrackResult :=
  { found := true, roomName := some name, key := some key, decryptedMessage := msg,
    resumeFrom := some name, resumeType := some ResumeType.bruteforce }

/-- The exhausted result (lines 455-461): `resumeFrom` is `undefined`
when the final index of the `maxLength` space is a gap index. -/
def exhaustedResult (maxLength : Nat) : CrackResult :=
  { found := false,
    resumeFrom := indexToRoomName maxLength (countNamesForLength maxLength - 1),
    resumeType := some ResumeType.bruteforce }

/-- A phase either returns a terminal result or falls through with the
current abort-read counter. -/
inductive PhaseOut where
  | done (r : CrackResult)
  | cont (k : Nat)
deriving DecidableEq

/-- Dictionary-phase outcome plus the ghost list of word-list indices
whose word was hash-checked. -/
structure DictOut where
  out : PhaseOut
  inspected : List Nat
deriving DecidableEq

/-- Phase B, the dictionary loop (lines 308-348), structurally recursive
on the word-list suffix from index `i`; `k` counts abort-flag reads. -/
def dictLoop (cx : CrackCtx) : List String → Nat → Nat → DictOut
  | [], _, k => ⟨PhaseOut.cont k, []⟩
  | word :: rest, i, k =>
    if cx.flagRead k then ⟨PhaseOut.done (dictAbortResult word), []⟩
    else
      let key := cx.C.deriveKeyFromRoomName (hashMarkStr ++ word)
      let wordChannelHash := cx.C.getChannelHash key
      if jsNumEq (jsParseIntHex wordChannelHash) cx.target then
        match vmFilters cx key with
        | (true, msg) => ⟨PhaseOut.done (dictSuccessResult word key msg), [i]⟩
        | (false, _) =>
          let r := dictLoop cx rest (i + 1) (k + 1)
          ⟨r.out, i :: r.inspected⟩
      else
        let r := dictLoop cx rest (i + 1) (k + 1)
        ⟨r.out, i :: r.inspected⟩

/-- The match-consumption loop of Phase C (lines 423-440). -/
def checkMatches (cx : CrackCtx) (length : Nat) : List Nat → Option CrackResult
  | [] => none
  | matchIdx :: rest =>
    match indexToRoomName length matchIdx with
    | none => checkMatches cx length rest
    | some roomName =>
      let key := cx.C.deriveKeyFromRoomName (hashMarkStr ++ roomName)
      match vmFilters cx key with
      | (true, msg) => some (bfSuccessResult roomName key msg)
      | (false, _) => checkMatches cx length rest

/-- Brute-force outcome plus the ghost list of dispatched
`(length, offset, batchSize)` batches. -/
structure BfOut where
  out : PhaseOut
  batches : List (Nat × Nat × Nat)
deriving DecidableEq

/-- `INITIAL_BATCH_SIZE` on the portable backend (line 352); the
auto-tuner never changes it there (line 411 requires the accelerator). -/
def INITIAL_BATCH_SIZE_CPU : Nat := 1024

/-- Phase C inner loop over the offsets of one length (lines 371-452).
Structural recursion on a fuel that is at least `total - offset` at
every call site (each batch advances the offset by at least one). -/
def bfInner (cx : CrackCtx) (length total : Nat) : Nat → Nat → Nat → BfOut
  | 0, _, k => ⟨PhaseOut.cont k, []⟩
  | fuel + 1, offset, k =>
    if offset < total then
      if cx.flagRead k then ⟨PhaseOut.done (bfAbortResult length offset), []⟩
      else
        let batchSize := min INITIAL_BATCH_SIZE_CPU (total - offset)
        let batchMatches := runBatch cx.C cx.target length offset batchSize
          (some cx.pkt.ciphertext) (some cx.pkt.cipherMac)
        match checkMatches cx length batchMatches with
        | some r => ⟨PhaseOut.done r, [(length, offset, batchSize)]⟩
        | none =>
          let rest := bfInner cx length total fuel (offset + batchSize) (k + 1)
          ⟨rest.out, (length, offset, batchSize) :: rest.batches⟩
    else ⟨PhaseOut.cont k, []⟩

/-- Phase C outer loop over lengths (lines 357-453).  Structural
recursion on a fuel that is `maxLength + 1 - length` at the top-level
call; falling through (`cont`) means the search space is exhausted. -/
def bfOuter (cx : CrackCtx) : Nat → Nat → Nat → BfOut
  | 0, _, k => ⟨PhaseOut.cont k, []⟩
  | fuel + 1, length, k =>
    if length > cx.opts.maxLength then ⟨PhaseOut.cont k, []⟩
    else if cx.flagRead k then ⟨PhaseOut.done (bfAbortResult length 0), []⟩
    else
      let total := countNamesForLength length
      let offset0 := if length = cx.rs.startFromLength then cx.rs.startFromOffset else 0
      let inner := bfInner cx length total total offset0 (k + 1)
      match inner.out with
      | PhaseOut.done r => ⟨PhaseOut.done r, inner.batches⟩
      | PhaseOut.cont k2 =>
        let rest := bfOuter cx fuel (length + 1) k2
        ⟨rest.out, inner.batches ++ rest.batches⟩

/-- Ghost observation record of one crack run: whether Phase A's guard
held (line 290), which dictionary indices were hash-checked, and which
batches were dispatched to the executor. -/
structure CrackTrace where
  publicTried : Bool
  dictInspected : List Nat
  bfBatches : List (Nat × Nat × Nat)
deriving DecidableEq

/-- The trace of a run that never got past packet decoding. -/
def emptyTrace : CrackTrace := ⟨false, [], []⟩

/-- The Phase A guard (line 290): try the public key only on a fresh,
unresumed search. -/
def crackTryPublic (cx : CrackCtx) : Bool :=
  !cx.rs.skipDictionary && cx.rs.dictionaryStartIndex == 0
    && cx.rs.startFromLength == cx.opts.startingLength && cx.rs.startFromOffset == 0

/-- Phase A (lines 289-305): compare the packet's channel hash with the
public key's, then run the filter chain on the public key. -/
def phaseAOutcome (cx : CrackCtx) : Option CrackResult :=
  if crackTryPublic cx then
    if cx.pkt.channelHash == cx.C.getChannelHash PUBLIC_KEY then
      match vmFilters cx PUBLIC_KEY with
      | (true, msg) => some (publicSuccessResult msg)
      | (false, _) => none
    else none
  else none

/-- Phase B guard and loop (line 308). -/
def dictPhase (cx : CrackCtx) : DictOut :=
  if cx.opts.useDictionary && !cx.rs.skipDictionary && decide (0 < cx.wl.length) then
    dictLoop cx (cx.wl.drop cx.rs.dictionaryStartIndex) cx.rs.dictionaryStartIndex 0
  else ⟨PhaseOut.cont 0, []⟩

def crackAfterDecode (cx : CrackCtx) : CrackResult × CrackTrace :=
  match phaseAOutcome cx with
  | some r => (r, { emptyTrace with publicTried := crackTryPublic cx })
  | none =>
    match (dictPhase cx).out with
    | PhaseOut.done r => (r, ⟨crackTryPublic cx, (dictPhase cx).inspected, []⟩)
    | PhaseOut.cont k =>
      let bOut := bfOuter cx (cx.opts.maxLength + 1 - cx.rs.startFromLength)
        cx.rs.startFromLength k
      match bOut.out with
      | PhaseOut.done r =>
        (r, ⟨crackTryPublic cx, (dictPhase cx).inspected, bOut.batches⟩)
      | PhaseOut.cont _ =>
        (exhaustedResult cx.opts.maxLength,
          ⟨crackTryPublic cx, (dictPhase cx).inspected, bOut.batches⟩)

/-- `GroupTextCracker.crack` (lines 144-462) on the portable-backend
execution path (the accelerator backend's source is not available; per
spec §4.3 the backends are interchangeable, and on accelerator-init
failure the code falls back to this path).  Parameters beyond the source
signature: the abstract crypto `C`, the external frame `decoder`, the
stored word list `wl` and the abort schedule `abortAt`.  Returns the
result together with the ghost trace. -/
def crack (C : CryptoModel) (decoder : Decoder) (wl : List String)
    (abortAt : Option Nat) (packetHex : String) (opts : CrackOptions) :
    CrackResult × CrackTrace :=
  let normalizedPacketHex := sToLower packetHex
  match decodePacket decoder normalizedPacketHex with
  | none => (parseErrorResult, emptyTrace)
  | some decoded =>
    crackAfterDecode ⟨C, decoded, opts, wl, abortAt, resolveStart wl opts⟩

/-! ## Characterization lemmas -/

theorem jsNumEq_true {a b : Option Nat} (h : jsNumEq a b = true) :
    ∃ x, a = some x ∧ b = some x := by
  rcases a with _ | x <;> rcases b with _ | y <;> simp [jsNumEq] at h
  exact ⟨x, rfl, by rw [h]⟩

theorem vmFilters_true (cx : CrackCtx) (key : String) (msg : Option String)
    (h : vmFilters cx key = (true, msg)) :
    cx.C.verifyMac cx.pkt.ciphertext cx.pkt.cipherMac key = true ∧
    ∃ d, cx.C.decryptGroupTextMessage cx.pkt.ciphertext cx.pkt.cipherMac key = some d ∧
      msg = some d.message ∧
      (cx.opts.useTimestampFilter = true →
        isTimestampValid cx.C.nowSeconds d.timestamp cx.opts.validSeconds = true) ∧
      (cx.opts.useUtf8Filter = true → isValidUtf8 d.message = true) := by
  rw [vmFilters] at h
  split_ifs at h with h1
  · simp at h
  · rcases hdec : cx.C.decryptGroupTextMessage cx.pkt.ciphertext cx.pkt.cipherMac key
      with _ | d
    · rw [hdec] at h
      simp at h
    · rw [hdec] at h
      simp only at h
      split_ifs at h with h2 h3
      · simp at h
      · simp at h
      · obtain ⟨-, rfl⟩ : True ∧ msg = some d.message := by
          constructor
          · trivial
          · exact (Prod.mk.injEq _ _ _ _ ▸ h).2.symm
        refine ⟨by simpa using h1, d, rfl, rfl, ?_, ?_⟩
        · intro hts
          rw [hts] at h2
          simpa using h2
        · intro hu
          rw [hu] at h3
          simpa using h3

theorem dictLoop_spec (cx : CrackCtx) (rest : List String) (i k : Nat) :
    (∀ r, (dictLoop cx rest i k).out = PhaseOut.done r →
      (∃ d, d < rest.length ∧ r = dictAbortResult (rest.getD d emptyStr) ∧
        (dictLoop cx rest i k).inspected = List.range' i d)
      ∨ (∃ d msg, d < rest.length ∧
          r = dictSuccessResult (rest.getD d emptyStr)
            (cx.C.deriveKeyFromRoomName (hashMarkStr ++ rest.getD d emptyStr)) msg ∧
          jsNumEq (jsParseIntHex (cx.C.getChannelHash
            (cx.C.deriveKeyFromRoomName (hashMarkStr ++ rest.getD d emptyStr))))
            cx.target = true ∧
          vmFilters cx (cx.C.deriveKeyFromRoomName (hashMarkStr ++ rest.getD d emptyStr))
            = (true, msg) ∧
          (dictLoop cx rest i k).inspected = List.range' i (d + 1))) ∧
    (∀ k2, (dictLoop cx rest i k).out = PhaseOut.cont k2 →
      (dictLoop cx rest i k).inspected = List.range' i rest.length) := by
  induction rest generalizing i k with
  | nil =>
    constructor
    · intro r hr
      simp [dictLoop] at hr
    · intro k2 _
      simp [dictLoop]
  | cons word rest ih =>
    rw [dictLoop]
    by_cases hflag : cx.flagRead k = true
    · rw [if_pos hflag]
      constructor
      · intro r hr
        simp only at hr
        obtain rfl : dictAbortResult word = r := by simpa using hr
        exact Or.inl ⟨0, by simp, rfl, by simp⟩
      · intro k2 hk2
        simp at hk2
    · rw [if_neg hflag]
      by_cases hmatch : jsNumEq (jsParseIntHex (cx.C.getChannelHash
          (cx.C.deriveKeyFromRoomName (hashMarkStr ++ word)))) cx.target = true
      · rw [if_pos hmatch]
        rcases hvm : vmFilters cx (cx.C.deriveKeyFromRoomName (hashMarkStr ++ word))
          with ⟨valid, msg⟩
        cases valid with
        | true =>
          constructor
          · intro r hr
            simp only [hvm] at hr
            obtain rfl : dictSuccessResult word
                (cx.C.deriveKeyFromRoomName (hashMarkStr ++ word)) msg = r := by
              simpa using hr
            refine Or.inr ⟨0, msg, by simp, rfl, ?_, ?_, ?_⟩
            · simpa using hmatch
            · simpa using hvm
            · simp [List.range'_succ]
          · intro k2 hk2
            simp [hvm] at hk2
        | false =>
          have hstep := ih (i + 1) (k + 1)
          constructor
          · intro r hr
            simp only [hvm] at hr
            rcases hstep.1 r (by simpa using hr) with ⟨d, hd, hres, hins⟩ |
              ⟨d, msg2, hd, hres, hmatch2, hvm2, hins⟩
            · refine Or.inl ⟨d + 1, by simpa using Nat.succ_lt_succ hd, by simpa using hres, ?_⟩
              simp only [hvm]
              rw [hins]
              simp [List.range'_succ]
            · refine Or.inr ⟨d + 1, msg2, by simpa using Nat.succ_lt_succ hd,
                by simpa using hres, by simpa using hmatch2, by simpa using hvm2, ?_⟩
              simp only [hvm]
              rw [hins]
              simp [List.range'_succ]
          · intro k2 hk2
            simp only [hvm] at hk2
            have := hstep.2 k2 (by simpa using hk2)
            simp only [hvm]
            rw [this]
            simp [List.range'_succ]
      · rw [if_neg hmatch]
        have hstep := ih (i + 1) (k + 1)
        constructor
        · intro r hr
          rcases hstep.1 r (by simpa using hr) with ⟨d, hd, hres, hins⟩ |
            ⟨d, msg2, hd, hres, hmatch2, hvm2, hins⟩
          · refine Or.inl ⟨d + 1, by simpa using Nat.succ_lt_succ hd, by simpa using hres, ?_⟩
            show i :: (dictLoop cx rest (i + 1) (k + 1)).inspected = List.range' i (d + 1)
            rw [hins]
            simp [List.range'_succ]
          · refine Or.inr ⟨d + 1, msg2, by simpa using Nat.succ_lt_succ hd,
              by simpa using hres, by simpa using hmatch2, by simpa using hvm2, ?_⟩
            show i :: (dictLoop cx rest (i + 1) (k + 1)).inspected = List.range' i (d + 1 + 1)
            rw [hins]
            simp [List.range'_succ]
        · intro k2 hk2
          have := hstep.2 k2 (by simpa using hk2)
          show i :: (dictLoop cx rest (i + 1) (k + 1)).inspected = List.range' i (word :: rest).length
          rw [this]
          simp [List.range'_succ]

theorem checkMatches_some (cx : CrackCtx) (length : Nat) (ms : List Nat) (r : CrackResult)
    (h : checkMatches cx length ms = some r) :
    ∃ m ∈ ms, ∃ name msg,
      indexToRoomName length m = some name ∧
      r = bfSuccessResult name (cx.C.deriveKeyFromRoomName (hashMarkStr ++ name)) msg ∧
      vmFilters cx (cx.C.deriveKeyFromRoomName (hashMarkStr ++ name)) = (true, msg) := by
  induction ms with
  | nil => simp [checkMatches] at h
  | cons m rest ih =>
    rw [checkMatches] at h
    rcases hdec : indexToRoomName length m with _ | name
    · rw [hdec] at h
      obtain ⟨m2, hm2, hrest⟩ := ih h
      exact ⟨m2, by simp [hm2], hrest⟩
    · rw [hdec] at h
      simp only at h
      rcases hvm : vmFilters cx (cx.C.deriveKeyFromRoomName (hashMarkStr ++ name))
        with ⟨valid, msg⟩
      cases valid with
      | true =>
        rw [hvm] at h
        obtain rfl : bfSuccessResult name
            (cx.C.deriveKeyFromRoomName (hashMarkStr ++ name)) msg = r := by simpa using h
        exact ⟨m, by simp, name, msg, hdec, rfl, hvm⟩
      | false =>
        rw [hvm] at h
        obtain ⟨m2, hm2, hrest⟩ := ih (by simpa using h)
        exact ⟨m2, by simp [hm2], hrest⟩

theorem bfInner_spec (cx : CrackCtx) (length total : Nat) :
    ∀ fuel offset k, total - offset ≤ fuel →
      (∀ b ∈ (bfInner cx length total fuel offset k).batches,
        b.1 = length ∧ offset ≤ b.2.1 ∧ b.2.1 + b.2.2 ≤ total) ∧
      (∀ r, (bfInner cx length total fuel offset k).out = PhaseOut.done r →
        (∃ o2, offset ≤ o2 ∧ o2 < total ∧ r = bfAbortResult length o2 ∧
          ∀ b ∈ (bfInner cx length total fuel offset k).batches, b.2.1 + b.2.2 ≤ o2)
        ∨ (∃ o2 n m name msg,
            (length, o2, n) ∈ (bfInner cx length total fuel offset k).batches ∧
            m ∈ runBatch cx.C cx.target length o2 n (some cx.pkt.ciphertext)
              (some cx.pkt.cipherMac) ∧
            indexToRoomName length m = some name ∧
            r = bfSuccessResult name (cx.C.deriveKeyFromRoomName (hashMarkStr ++ name)) msg ∧
            vmFilters cx (cx.C.deriveKeyFromRoomName (hashMarkStr ++ name)) = (true, msg))) := by
  intro fuel
  induction fuel with
  | zero =>
    intro offset k _
    constructor
    · intro b hb
      simp [bfInner] at hb
    · intro r hr
      simp [bfInner] at hr
  | succ fuel ih =>
    intro offset k hfuel
    by_cases hoff : offset < total
    · by_cases hflag : cx.flagRead k = true
      · have hout : bfInner cx length total (fuel + 1) offset k
            = ⟨PhaseOut.done (bfAbortResult length offset), []⟩ := by
          rw [bfInner, if_pos hoff, if_pos hflag]
        rw [hout]
        constructor
        · intro b hb
          simp at hb
        · intro r hr
          obtain rfl : bfAbortResult length offset = r := by simpa using hr
          exact Or.inl ⟨offset, le_refl _, hoff, rfl, by simp⟩
      · have hbs1 : 1 ≤ min INITIAL_BATCH_SIZE_CPU (total - offset) := by
          unfold INITIAL_BATCH_SIZE_CPU
          omega
        have hbsle : min INITIAL_BATCH_SIZE_CPU (total - offset) ≤ total - offset :=
          Nat.min_le_right _ _
        rcases hcm : checkMatches cx length (runBatch cx.C cx.target length offset
            (min INITIAL_BATCH_SIZE_CPU (total - offset)) (some cx.pkt.ciphertext)
            (some cx.pkt.cipherMac)) with _ | r0
        · -- no match in this batch: recurse
          have hout : bfInner cx length total (fuel + 1) offset k
              = ⟨(bfInner cx length total fuel
                    (offset + min INITIAL_BATCH_SIZE_CPU (total - offset)) (k + 1)).out,
                  (length, offset, min INITIAL_BATCH_SIZE_CPU (total - offset))
                    :: (bfInner cx length total fuel
                      (offset + min INITIAL_BATCH_SIZE_CPU (total - offset)) (k + 1)).batches⟩ := by
            rw [bfInner, if_pos hoff, if_neg hflag]
            simp only [hcm]
          have hstep := ih (offset + min INITIAL_BATCH_SIZE_CPU (total - offset)) (k + 1)
            (by omega)
          rw [hout]
          constructor
          · intro b hb
            rcases List.mem_cons.mp hb with rfl | hb
            · refine ⟨rfl, le_refl _, ?_⟩
              show offset + min INITIAL_BATCH_SIZE_CPU (total - offset) ≤ total
              omega
            · obtain ⟨h1, h2, h3⟩ := hstep.1 b hb
              exact ⟨h1, by omega, h3⟩
          · intro r hr
            rcases hstep.2 r (by simpa using hr) with
              ⟨o2, ho1, ho2, hres, hball⟩ | ⟨o2, n, m, name, msg, hmem, hrb, hdec, hres, hvm⟩
            · refine Or.inl ⟨o2, by omega, ho2, hres, ?_⟩
              intro b hb
              rcases List.mem_cons.mp hb with rfl | hb
              · show offset + min INITIAL_BATCH_SIZE_CPU (total - offset) ≤ o2
                omega
              · exact hball b hb
            · exact Or.inr ⟨o2, n, m, name, msg, by simp [hmem], hrb, hdec, hres, hvm⟩
        · -- a candidate in this batch survived the filter chain
          have hout : bfInner cx length total (fuel + 1) offset k
              = ⟨PhaseOut.done r0,
                  [(length, offset, min INITIAL_BATCH_SIZE_CPU (total - offset))]⟩ := by
            rw [bfInner, if_pos hoff, if_neg hflag]
            simp only [hcm]
          rw [hout]
          constructor
          · intro b hb
            obtain rfl : b = (length, offset, min INITIAL_BATCH_SIZE_CPU (total - offset)) := by
              simpa using hb
            refine ⟨rfl, le_refl _, ?_⟩
            show offset + min INITIAL_BATCH_SIZE_CPU (total - offset) ≤ total
            omega
          · intro r hr
            obtain rfl : r0 = r := by simpa using hr
            obtain ⟨m, hm, name, msg, hdec, hres, hvm⟩ := checkMatches_some cx length _ r0 hcm
            exact Or.inr ⟨offset, min INITIAL_BATCH_SIZE_CPU (total - offset), m, name, msg,
              by simp, hm, hdec, hres, hvm⟩
    · have hout : bfInner cx length total (fuel + 1) offset k = ⟨PhaseOut.cont k, []⟩ := by
        rw [bfInner, if_neg hoff]
      rw [hout]
      constructor
      · intro b hb
        simp at hb
      · intro r hr
        simp at hr

theorem bfOuter_spec (cx : CrackCtx) :
    ∀ fuel length k,
      (∀ b ∈ (bfOuter cx fuel length k).batches,
        length ≤ b.1 ∧ b.1 ≤ cx.opts.maxLength ∧
          b.2.1 + b.2.2 ≤ countNamesForLength b.1) ∧
      (∀ r, (bfOuter cx fuel length k).out = PhaseOut.done r →
        (∃ l2 o2, length ≤ l2 ∧ l2 ≤ cx.opts.maxLength ∧ r = bfAbortResult l2 o2 ∧
          ∀ b ∈ (bfOuter cx fuel length k).batches,
            b.1 < l2 ∨ (b.1 = l2 ∧ b.2.1 + b.2.2 ≤ o2))
        ∨ (∃ l2 o2 n m name msg, length ≤ l2 ∧ l2 ≤ cx.opts.maxLength ∧
            (l2, o2, n) ∈ (bfOuter cx fuel length k).batches ∧
            m ∈ runBatch cx.C cx.target l2 o2 n (some cx.pkt.ciphertext)
              (some cx.pkt.cipherMac) ∧
            indexToRoomName l2 m = some name ∧
            r = bfSuccessResult name (cx.C.deriveKeyFromRoomName (hashMarkStr ++ name)) msg ∧
            vmFilters cx (cx.C.deriveKeyFromRoomName (hashMarkStr ++ name)) = (true, msg))) := by
  intro fuel
  induction fuel with
  | zero =>
    intro length k
    constructor
    · intro b hb
      simp [bfOuter] at hb
    · intro r hr
      simp [bfOuter] at hr
  | succ fuel ih =>
    intro length k
    by_cases hlen : length > cx.opts.maxLength
    · have hout : bfOuter cx (fuel + 1) length k = ⟨PhaseOut.cont k, []⟩ := by
        rw [bfOuter, if_pos hlen]
      rw [hout]
      constructor
      · intro b hb
        simp at hb
      · intro r hr
        simp at hr
    · by_cases hflag : cx.flagRead k = true
      · have hout : bfOuter cx (fuel + 1) length k
            = ⟨PhaseOut.done (bfAbortResult length 0), []⟩ := by
          rw [bfOuter, if_neg hlen, if_pos hflag]
        rw [hout]
        constructor
        · intro b hb
          simp at hb
        · intro r hr
          obtain rfl : bfAbortResult length 0 = r := by simpa using hr
          exact Or.inl ⟨length, 0, le_refl _, by omega, rfl, by simp⟩
      · have hinner := bfInner_spec cx length (countNamesForLength length)
          (countNamesForLength length)
          (if length = cx.rs.startFromLength then cx.rs.startFromOffset else 0) (k + 1)
          (by omega)
        rcases hio : (bfInner cx length (countNamesForLength length)
            (countNamesForLength length)
            (if length = cx.rs.startFromLength then cx.rs.startFromOffset else 0)
            (k + 1)).out with r1 | k2
        · have hout : bfOuter cx (fuel + 1) length k
              = ⟨PhaseOut.done r1,
                  (bfInner cx length (countNamesForLength length) (countNamesForLength length)
                    (if length = cx.rs.startFromLength then cx.rs.startFromOffset else 0)
                    (k + 1)).batches⟩ := by
            rw [bfOuter, if_neg hlen, if_neg hflag]
            simp only [hio]
          rw [hout]
          constructor
          · intro b hb
            obtain ⟨h1, _, h3⟩ := hinner.1 b hb
            rw [h1]
            exact ⟨le_refl _, by omega, h3⟩
          · intro r hr
            obtain rfl : r1 = r := by simpa using hr
            rcases hinner.2 r1 hio with
              ⟨o2, _, _, hres, hball⟩ | ⟨o2, n, m, name, msg, hmem, hrb, hdec, hres, hvm⟩
            · refine Or.inl ⟨length, o2, le_refl _, by omega, hres, ?_⟩
              intro b hb
              obtain ⟨h1, _, _⟩ := hinner.1 b hb
              exact Or.inr ⟨h1, hball b hb⟩
            · exact Or.inr ⟨length, o2, n, m, name, msg, le_refl _, by omega, hmem,
                hrb, hdec, hres, hvm⟩
        · have hout : bfOuter cx (fuel + 1) length k
              = ⟨(bfOuter cx fuel (length + 1) k2).out,
                  (bfInner cx length (countNamesForLength length) (countNamesForLength length)
                    (if length = cx.rs.startFromLength then cx.rs.startFromOffset else 0)
                    (k + 1)).batches ++ (bfOuter cx fuel (length + 1) k2).batches⟩ := by
            rw [bfOuter, if_neg hlen, if_neg hflag]
            simp only [hio]
          have hrest := ih (length + 1) k2
          rw [hout]
          constructor
          · intro b hb
            rcases List.mem_append.mp hb with hb | hb
            · obtain ⟨h1, _, h3⟩ := hinner.1 b hb
              rw [h1]
              exact ⟨le_refl _, by omega, h3⟩
            · obtain ⟨h1, h2, h3⟩ := hrest.1 b hb
              exact ⟨by omega, h2, h3⟩
          · intro r hr
            rcases hrest.2 r (by simpa using hr) with
              ⟨l2, o2, hl1, hl2, hres, hball⟩ |
              ⟨l2, o2, n, m, name, msg, hl1, hl2, hmem, hrb, hdec, hres, hvm⟩
            · refine Or.inl ⟨l2, o2, by omega, hl2, hres, ?_⟩
              intro b hb
              rcases List.mem_append.mp hb with hb | hb
              · obtain ⟨h1, _, _⟩ := hinner.1 b hb
                exact Or.inl (by omega)
              · exact hball b hb
            · exact Or.inr ⟨l2, o2, n, m, name, msg, by omega, hl2,
                List.mem_append.mpr (Or.inr hmem), hrb, hdec, hres, hvm⟩

theorem phaseAOutcome_some (cx : CrackCtx) (r : CrackResult)
    (h : phaseAOutcome cx = some r) :
    crackTryPublic cx = true ∧
      ∃ msg, r = publicSuccessResult msg ∧ vmFilters cx PUBLIC_KEY = (true, msg) := by
  rw [phaseAOutcome] at h
  split_ifs at h with h1 h2
  · rcases hvm : vmFilters cx PUBLIC_KEY with ⟨valid, msg⟩
    rw [hvm] at h
    cases valid with
    | true =>
      obtain rfl : publicSuccessResult msg = r := by simpa using h
      exact ⟨h1, msg, rfl, rfl⟩
    | false => simp at h

theorem getD_drop_emptyStr (wl : List String) (ds d : Nat)
    (h : d < (wl.drop ds).length) :
    (wl.drop ds).getD d emptyStr = wl.getD (ds + d) emptyStr := by
  have h2 : ds + d < wl.length := by
    rw [List.length_drop] at h
    omega
  rw [List.getD_eq_getElem _ _ h, List.getD_eq_getElem _ _ h2]
  exact List.getElem_drop wl

theorem dictPhase_spec (cx : CrackCtx) :
    (∃ n, (dictPhase cx).inspected = List.range' cx.rs.dictionaryStartIndex n) ∧
    (∀ r, (dictPhase cx).out = PhaseOut.done r →
      (∃ j, cx.rs.dictionaryStartIndex ≤ j ∧ j < cx.wl.length ∧
        r = dictAbortResult (cx.wl.getD j emptyStr) ∧
        (dictPhase cx).inspected
          = List.range' cx.rs.dictionaryStartIndex (j - cx.rs.dictionaryStartIndex))
      ∨ (∃ j msg, cx.rs.dictionaryStartIndex ≤ j ∧ j < cx.wl.length ∧
          r = dictSuccessResult (cx.wl.getD j emptyStr)
            (cx.C.deriveKeyFromRoomName (hashMarkStr ++ cx.wl.getD j emptyStr)) msg ∧
          jsNumEq (jsParseIntHex (cx.C.getChannelHash (cx.C.deriveKeyFromRoomName
            (hashMarkStr ++ cx.wl.getD j emptyStr)))) cx.target = true ∧
          vmFilters cx (cx.C.deriveKeyFromRoomName
            (hashMarkStr ++ cx.wl.getD j emptyStr)) = (true, msg) ∧
          (dictPhase cx).inspected
            = List.range' cx.rs.dictionaryStartIndex
                (j + 1 - cx.rs.dictionaryStartIndex))) := by
  rw [dictPhase]
  split_ifs with hrun
  · have hspec := dictLoop_spec cx (cx.wl.drop cx.rs.dictionaryStartIndex)
      cx.rs.dictionaryStartIndex 0
    constructor
    · rcases ho : (dictLoop cx (cx.wl.drop cx.rs.dictionaryStartIndex)
          cx.rs.dictionaryStartIndex 0).out with r | k
      · rcases hspec.1 r ho with ⟨d, hd, _, hins⟩ | ⟨d, msg, hd, _, _, _, hins⟩
        · exact ⟨d, hins⟩
        · exact ⟨d + 1, hins⟩
      · exact ⟨_, hspec.2 k ho⟩
    · intro r hr
      rcases hspec.1 r hr with ⟨d, hd, hres, hins⟩ |
        ⟨d, msg, hd, hres, hmatch, hvm, hins⟩
      · refine Or.inl ⟨cx.rs.dictionaryStartIndex + d, by omega, ?_, ?_, ?_⟩
        · rw [List.length_drop] at hd
          omega
        · rw [hres, getD_drop_emptyStr _ _ _ hd]
        · rw [hins]
          congr 1
          omega
      · refine Or.inr ⟨cx.rs.dictionaryStartIndex + d, msg, by omega, ?_, ?_, ?_, ?_, ?_⟩
        · rw [List.length_drop] at hd
          omega
        · rw [hres, getD_drop_emptyStr _ _ _ hd]
        · rw [← getD_drop_emptyStr _ _ _ hd]
          exact hmatch
        · rw [← getD_drop_emptyStr _ _ _ hd]
          exact hvm
        · rw [hins]
          congr 1
          omega
  · constructor
    · exact ⟨0, by simp⟩
    · intro r hr
      simp at hr

/-- Comprehensive case analysis of one crack run after successful packet
decoding: trace facts, and the six possible terminal outcomes with the
evidence each carries. -/
theorem crackAfterDecode_cases (cx : CrackCtx) :
    (crackAfterDecode cx).2.publicTried = crackTryPublic cx ∧
    (∃ n, (crackAfterDecode cx).2.dictInspected
        = List.range' cx.rs.dictionaryStartIndex n) ∧
    (∀ b ∈ (crackAfterDecode cx).2.bfBatches,
      cx.rs.startFromLength ≤ b.1 ∧ b.1 ≤ cx.opts.maxLength ∧
        b.2.1 + b.2.2 ≤ countNamesForLength b.1) ∧
    ((∃ msg, (crackAfterDecode cx).1 = publicSuccessResult msg ∧
        vmFilters cx PUBLIC_KEY = (true, msg) ∧
        (crackAfterDecode cx).2.dictInspected = [] ∧
        (crackAfterDecode cx).2.bfBatches = [])
     ∨ (∃ j msg, cx.rs.dictionaryStartIndex ≤ j ∧ j < cx.wl.length ∧
         (crackAfterDecode cx).1 = dictSuccessResult (cx.wl.getD j emptyStr)
           (cx.C.deriveKeyFromRoomName (hashMarkStr ++ cx.wl.getD j emptyStr)) msg ∧
         jsNumEq (jsParseIntHex (cx.C.getChannelHash (cx.C.deriveKeyFromRoomName
           (hashMarkStr ++ cx.wl.getD j emptyStr)))) cx.target = true ∧
         vmFilters cx (cx.C.deriveKeyFromRoomName
           (hashMarkStr ++ cx.wl.getD j emptyStr)) = (true, msg) ∧
         (crackAfterDecode cx).2.dictInspected
           = List.range' cx.rs.dictionaryStartIndex
               (j + 1 - cx.rs.dictionaryStartIndex) ∧
         (crackAfterDecode cx).2.bfBatches = [])
     ∨ (∃ j, cx.rs.dictionaryStartIndex ≤ j ∧ j < cx.wl.length ∧
         (crackAfterDecode cx).1 = dictAbortResult (cx.wl.getD j emptyStr) ∧
         (crackAfterDecode cx).2.dictInspected
           = List.range' cx.rs.dictionaryStartIndex
               (j - cx.rs.dictionaryStartIndex) ∧
         (crackAfterDecode cx).2.bfBatches = [])
     ∨ (∃ l o n m name msg, (l, o, n) ∈ (crackAfterDecode cx).2.bfBatches ∧
         m ∈ runBatch cx.C cx.target l o n (some cx.pkt.ciphertext)
           (some cx.pkt.cipherMac) ∧
         indexToRoomName l m = some name ∧
         (crackAfterDecode cx).1 = bfSuccessResult name
           (cx.C.deriveKeyFromRoomName (hashMarkStr ++ name)) msg ∧
         vmFilters cx (cx.C.deriveKeyFromRoomName (hashMarkStr ++ name)) = (true, msg))
     ∨ (∃ l o, cx.rs.startFromLength ≤ l ∧ l ≤ cx.opts.maxLength ∧
         (crackAfterDecode cx).1 = bfAbortResult l o ∧
         (∀ b ∈ (crackAfterDecode cx).2.bfBatches,
           b.1 < l ∨ (b.1 = l ∧ b.2.1 + b.2.2 ≤ o)))
     ∨ (crackAfterDecode cx).1 = exhaustedResult cx.opts.maxLength) := by
  obtain ⟨⟨nd, hdins⟩, hddone⟩ := dictPhase_spec cx
  rcases hpo : phaseAOutcome cx with _ | r0
  · rcases hdo : (dictPhase cx).out with r1 | k
    · -- dictionary phase terminated the crack
      have hca : crackAfterDecode cx
          = (r1, ⟨crackTryPublic cx, (dictPhase cx).inspected, []⟩) := by
        rw [crackAfterDecode, hpo]
        simp only [hdo]
      rw [hca]
      refine ⟨rfl, ⟨nd, hdins⟩, by simp, ?_⟩
      rcases hddone r1 hdo with ⟨j, hj1, hj2, hres, hins⟩ |
        ⟨j, msg, hj1, hj2, hres, hmatch, hvm, hins⟩
      · exact Or.inr (Or.inr (Or.inl ⟨j, hj1, hj2, hres, hins, rfl⟩))
      · exact Or.inr (Or.inl ⟨j, msg, hj1, hj2, hres, hmatch, hvm, hins, rfl⟩)
    · -- brute-force phase
      have hbf := bfOuter_spec cx (cx.opts.maxLength + 1 - cx.rs.startFromLength)
        cx.rs.startFromLength k
      rcases hbo : (bfOuter cx (cx.opts.maxLength + 1 - cx.rs.startFromLength)
          cx.rs.startFromLength k).out with r2 | k2
      · have hca : crackAfterDecode cx
            = (r2, ⟨crackTryPublic cx, (dictPhase cx).inspected,
                (bfOuter cx (cx.opts.maxLength + 1 - cx.rs.startFromLength)
                  cx.rs.startFromLength k).batches⟩) := by
          rw [crackAfterDecode, hpo]
          simp only [hdo, hbo]
        rw [hca]
        refine ⟨rfl, ⟨nd, hdins⟩, hbf.1, ?_⟩
        rcases hbf.2 r2 hbo with ⟨l2, o2, hl1, hl2, hres, hball⟩ |
          ⟨l2, o2, n, m, name, msg, hl1, hl2, hmem, hrb, hdec2, hres, hvm⟩
        · exact Or.inr (Or.inr (Or.inr (Or.inr (Or.inl ⟨l2, o2, hl1, hl2, hres, hball⟩))))
        · exact Or.inr (Or.inr (Or.inr (Or.inl
            ⟨l2, o2, n, m, name, msg, hmem, hrb, hdec2, hres, hvm⟩)))
      · have hca : crackAfterDecode cx
            = (exhaustedResult cx.opts.maxLength,
                ⟨crackTryPublic cx, (dictPhase cx).inspected,
                  (bfOuter cx (cx.opts.maxLength + 1 - cx.rs.startFromLength)
                    cx.rs.startFromLength k).batches⟩) := by
          rw [crackAfterDecode, hpo]
          simp only [hdo, hbo]
        rw [hca]
        exact ⟨rfl, ⟨nd, hdins⟩, hbf.1, Or.inr (Or.inr (Or.inr (Or.inr (Or.inr rfl))))⟩
  · -- Phase A produced the result
    obtain ⟨htp, msg, rfl, hvm⟩ := phaseAOutcome_some cx r0 hpo
    have hca : crackAfterDecode cx
        = (publicSuccessResult msg, { emptyTrace with publicTried := crackTryPublic cx }) := by
      rw [crackAfterDecode, hpo]
    rw [hca]
    exact ⟨rfl, ⟨0, by simp [emptyTrace]⟩, by simp [emptyTrace],
      Or.inl ⟨msg, rfl, hvm, rfl, rfl⟩⟩

theorem crack_eq (C : CryptoModel) (decoder : Decoder) (wl : List String)
    (abortAt : Option Nat) (packetHex : String) (opts : CrackOptions) :
    crack C decoder wl abortAt packetHex opts
      = match decodePacket decoder (sToLower packetHex) with
        | none => (parseErrorResult, emptyTrace)
        | some pkt => crackAfterDecode ⟨C, pkt, opts, wl, abortAt, resolveStart wl opts⟩ :=
  rfl

/-! ## Concrete scenarios used by the witnesses and counterexamples -/

/-- Ciphertext placeholder of the scenario packets. -/
def ctStubStr : String := String.mk ['c', 't']

/-- MAC placeholder of the scenario packets. -/
def macStubStr : String := String.mk ['m', 'c']

/-- Scenario decoder: every hex input decodes to a GroupText payload with
channel hash `00`. -/
def stubDecoder : Decoder := fun _ =>
  some ⟨some (jsToHex2 (some 0)), some ctStubStr, some macStubStr⟩

/-- Scenario decoder modelling a frame that never parses. -/
def noneDecoder : Decoder := fun _ => none

/-- Scenario crypto: keys are the hashed names themselves; every derived
key hashes to `00` while the public key hashes to `01`; all MACs verify;
decryption yields an empty message stamped at time zero. -/
def scenCrypto : CryptoModel where
  deriveKeyFromRoomName := fun s => s
  getChannelHash := fun k => if k == PUBLIC_KEY then jsToHex2 (some 1) else jsToHex2 (some 0)
  verifyMac := fun _ _ _ => true
  decryptGroupTextMessage := fun _ _ _ => some ⟨0, emptyStr⟩
  nowSeconds := 0

/-- Scenario crypto whose public-key hash matches the packet, so that
Phase A succeeds whenever it runs. -/
def pubCrypto : CryptoModel where
  deriveKeyFromRoomName := fun s => s
  getChannelHash := fun _ => jsToHex2 (some 0)
  verifyMac := fun _ _ _ => true
  decryptGroupTextMessage := fun _ _ _ => some ⟨0, emptyStr⟩
  nowSeconds := 0

/-- A non-hex packet string. -/
def invalidStr : String := "invalid"

/-- A two-digit hex packet string for the scenarios. -/
def pktStr : String := String.mk ['a', 'b']

/-- The word `aa`. -/
def aaStr : String := String.mk ['a', 'a']

/-- The word `bb`. -/
def bbStr : String := String.mk ['b', 'b']

/-- The word `a`. -/
def aStr : String := String.mk ['a']

/-- The word `zz`, used as a cursor that is absent from the word list. -/
def zzStr : String := String.mk ['z', 'z']

/-- The name `aab`, position 1 of length 3. -/
def aabStr : String := String.mk ['a', 'a', 'b']

/-- The leading words of the parse-error message. -/
def invalidPacketPrefix : String := "Invalid packet"

/-! ## Claim C7 -/

/-- Claim C7: an input that does not decode as a GroupText frame yields
`found = false` with an error message beginning `Invalid packet`, and the
run dispatches no batch to any executor (the trace records no batches —
the decode guard sits before backend selection). -/
theorem crack_invalid_packet (C : CryptoModel) (decoder : Decoder) (wl : List String)
    (abortAt : Option Nat) (packetHex : String) (opts : CrackOptions)
    (h : decodePacket decoder (sToLower packetHex) = none) :
    crack C decoder wl abortAt packetHex opts = (parseErrorResult, emptyTrace) ∧
    (crack C decoder wl abortAt packetHex opts).1.found = false ∧
    (crack C decoder wl abortAt packetHex opts).1.error = some invalidPacketMsg ∧
    (∃ rest, invalidPacketMsg = invalidPacketPrefix ++ rest) ∧
    (crack C decoder wl abortAt packetHex opts).2.bfBatches = [] := by
  have hc : crack C decoder wl abortAt packetHex opts = (parseErrorResult, emptyTrace) := by
    rw [crack_eq, h]
  refine ⟨hc, ?_, ?_, ?_, ?_⟩
  · rw [hc]
    rfl
  · rw [hc]
    rfl
  · exact ⟨String.mk [' ', 'o', 'r', ' ', 'n', 'o', 't', ' ', 'a', ' ', 'G', 'r', 'o',
      'u', 'p', 'T', 'e', 'x', 't', ' ', 'p', 'a', 'c', 'k', 'e', 't'], by decide⟩
  · rw [hc]
    rfl

/-- Witness for claim C7 on the literal input `"invalid"`. -/
theorem crack_invalid_packet_witness :
    decodePacket noneDecoder (sToLower invalidStr) = none ∧
      (crack trivCrypto noneDecoder [] none invalidStr {} = (parseErrorResult, emptyTrace) ∧
      (crack trivCrypto noneDecoder [] none invalidStr {}).1.found = false ∧
      (crack trivCrypto noneDecoder [] none invalidStr {}).1.error = some invalidPacketMsg ∧
      (∃ rest, invalidPacketMsg = invalidPacketPrefix ++ rest) ∧
      (crack trivCrypto noneDecoder [] none invalidStr {}).2.bfBatches = []) :=
  ⟨by decide, crack_invalid_packet trivCrypto noneDecoder [] none invalidStr {} (by decide)⟩

/-! ## Claim C6 -/

/-- Claim C6: a found result's decrypted message passed every enabled
filter — with the UTF-8 filter on it contains no `U+FFFD`, and with the
timestamp filter on its timestamp lies within
`[now - validSeconds, now + validSeconds]`. -/
theorem crack_filter_soundness (C : CryptoModel) (decoder : Decoder) (wl : List String)
    (abortAt : Option Nat) (packetHex : String) (opts : CrackOptions)
    (hfound : (crack C decoder wl abortAt packetHex opts).1.found = true) :
    ∃ pkt key d, decodePacket decoder (sToLower packetHex) = some pkt ∧
      (crack C decoder wl abortAt packetHex opts).1.key = some key ∧
      C.verifyMac pkt.ciphertext pkt.cipherMac key = true ∧
      C.decryptGroupTextMessage pkt.ciphertext pkt.cipherMac key = some d ∧
      (crack C decoder wl abortAt packetHex opts).1.decryptedMessage = some d.message ∧
      (opts.useTimestampFilter = true →
        isTimestampValid C.nowSeconds d.timestamp opts.validSeconds = true) ∧
      (opts.useUtf8Filter = true → isValidUtf8 d.message = true) := by
  rcases hdec : decodePacket decoder (sToLower packetHex) with _ | pkt
  · rw [crack_eq, hdec] at hfound
    simp [parseErrorResult] at hfound
  · have hceq : crack C decoder wl abortAt packetHex opts
        = crackAfterDecode ⟨C, pkt, opts, wl, abortAt, resolveStart wl opts⟩ := by
      rw [crack_eq, hdec]
    set cx : CrackCtx := ⟨C, pkt, opts, wl, abortAt, resolveStart wl opts⟩ with hcx
    rw [hceq] at hfound ⊢
    obtain ⟨-, -, -, hcases⟩ := crackAfterDecode_cases cx
    rcases hcases with ⟨msg, hres, hvm, -, -⟩ |
      ⟨j, msg, -, -, hres, -, hvm, -, -⟩ | ⟨j, -, -, hres, -, -⟩ |
      ⟨l, o, n, m, name, msg, -, -, -, hres, hvm⟩ | ⟨l, o, -, -, hres, -⟩ | hres
    · obtain ⟨hmac, d, hd, rfl, hts, hu⟩ := vmFilters_true cx PUBLIC_KEY msg hvm
      exact ⟨pkt, PUBLIC_KEY, d, rfl, by rw [hres]; rfl, hmac, hd, by rw [hres]; rfl,
        hts, hu⟩
    · obtain ⟨hmac, d, hd, rfl, hts, hu⟩ := vmFilters_true cx _ msg hvm
      exact ⟨pkt, cx.C.deriveKeyFromRoomName (hashMarkStr ++ cx.wl.getD j emptyStr), d,
        rfl, by rw [hres]; rfl, hmac, hd, by rw [hres]; rfl, hts, hu⟩
    · rw [hres] at hfound
      simp [dictAbortResult] at hfound
    · obtain ⟨hmac, d, hd, rfl, hts, hu⟩ := vmFilters_true cx _ msg hvm
      exact ⟨pkt, cx.C.deriveKeyFromRoomName (hashMarkStr ++ name), d, rfl,
        by rw [hres]; rfl, hmac, hd, by rw [hres]; rfl, hts, hu⟩
    · rw [hres] at hfound
      simp [bfAbortResult] at hfound
    · rw [hres] at hfound
      simp [exhaustedResult] at hfound

/-- Witness for claim C6: the public-room success scenario. -/
theorem crack_filter_soundness_witness :
    (crack pubCrypto stubDecoder [] none pktStr { maxLength := 1 }).1.found = true ∧
      ∃ pkt key d, decodePacket stubDecoder (sToLower pktStr) = some pkt ∧
        (crack pubCrypto stubDecoder [] none pktStr { maxLength := 1 }).1.key = some key ∧
        pubCrypto.verifyMac pkt.ciphertext pkt.cipherMac key = true ∧
        pubCrypto.decryptGroupTextMessage pkt.ciphertext pkt.cipherMac key = some d ∧
        (crack pubCrypto stubDecoder [] none pktStr
          { maxLength := 1 }).1.decryptedMessage = some d.message ∧
        (({ maxLength := 1 } : CrackOptions).useTimestampFilter = true →
          isTimestampValid pubCrypto.nowSeconds d.timestamp
            ({ maxLength := 1 } : CrackOptions).validSeconds = true) ∧
        (({ maxLength := 1 } : CrackOptions).useUtf8Filter = true →
          isValidUtf8 d.message = true) :=
  ⟨by decide, crack_filter_soundness pubCrypto stubDecoder [] none pktStr
    { maxLength := 1 } (by decide)⟩

/-! ## Claim C10 -/

/-- Claim C10: a non-public found result carries exactly the key derived
from `'#' + roomName`; that key's channel hash agrees with the packet's
channel-hash byte, and the packet's MAC verifies under it. -/
theorem crack_success_key_consistent (C : CryptoModel) (decoder : Decoder)
    (wl : List String) (abortAt : Option Nat) (packetHex : String) (opts : CrackOptions)
    (name : String)
    (hfound : (crack C decoder wl abortAt packetHex opts).1.found = true)
    (hname : (crack C decoder wl abortAt packetHex opts).1.roomName = some name)
    (hpub : name ≠ PUBLIC_ROOM_NAME) :
    ∃ pkt, decodePacket decoder (sToLower packetHex) = some pkt ∧
      (crack C decoder wl abortAt packetHex opts).1.key
        = some (C.deriveKeyFromRoomName (hashMarkStr ++ name)) ∧
      C.verifyMac pkt.ciphertext pkt.cipherMac
        (C.deriveKeyFromRoomName (hashMarkStr ++ name)) = true ∧
      jsParseIntHex (C.getChannelHash (C.deriveKeyFromRoomName (hashMarkStr ++ name)))
        = jsParseIntHex pkt.channelHash := by
  rcases hdec : decodePacket decoder (sToLower packetHex) with _ | pkt
  · rw [crack_eq, hdec] at hfound
    simp [parseErrorResult] at hfound
  · have hceq : crack C decoder wl abortAt packetHex opts
        = crackAfterDecode ⟨C, pkt, opts, wl, abortAt, resolveStart wl opts⟩ := by
      rw [crack_eq, hdec]
    set cx : CrackCtx := ⟨C, pkt, opts, wl, abortAt, resolveStart wl opts⟩ with hcx
    rw [hceq] at hfound hname ⊢
    obtain ⟨-, -, -, hcases⟩ := crackAfterDecode_cases cx
    rcases hcases with ⟨msg, hres, hvm, -, -⟩ |
      ⟨j, msg, -, -, hres, hmatch, hvm, -, -⟩ | ⟨j, -, -, hres, -, -⟩ |
      ⟨l, o, n, m, name2, msg, -, hrb, hdec2, hres, hvm⟩ | ⟨l, o, -, -, hres, -⟩ | hres
    · exfalso
      rw [hres] at hname
      apply hpub
      have : some PUBLIC_ROOM_NAME = some name := by
        simpa [publicSuccessResult] using hname
      exact (Option.some.injEq _ _ ▸ this).symm
    · rw [hres] at hname
      obtain rfl : cx.wl.getD j emptyStr = name := by
        simpa [dictSuccessResult] using hname
      obtain ⟨hmac, d, hd, rfl, -, -⟩ := vmFilters_true cx _ msg hvm
      obtain ⟨x, hx1, hx2⟩ := jsNumEq_true hmatch
      refine ⟨pkt, rfl, by rw [hres]; rfl, hmac, ?_⟩
      rw [hx1]
      exact hx2.symm
    · rw [hres] at hfound
      simp [dictAbortResult] at hfound
    · rw [hres] at hname
      obtain rfl : name2 = name := by
        simpa [bfSuccessResult] using hname
      obtain ⟨hmac, d, hd, rfl, -, -⟩ := vmFilters_true cx _ msg hvm
      rw [runBatch_mem] at hrb
      obtain ⟨i, hi, him, name3, hname3, hhash, -⟩ := hrb
      obtain rfl : name3 = name2 := by
        rw [hname3] at hdec2
        exact (Option.some.injEq _ _ ▸ hdec2)
      refine ⟨pkt, rfl, by rw [hres]; rfl, hmac, ?_⟩
      rw [hhash]
      rcases htv : jsParseIntHex cx.pkt.channelHash with _ | b
      · rw [show cx.target = none from htv ▸ rfl] at *
        exact jsParseIntHex_nanStr
      · have hteq : cx.target = some b := htv
        rw [hteq, jsParseIntHex_jsToHex2]
    · rw [hres] at hfound
      simp [bfAbortResult] at hfound
    · rw [hres] at hfound
      simp [exhaustedResult] at hfound

/-- Witness for claim C10: the dictionary success on the word `aa`. -/
theorem crack_success_key_consistent_witness :
    (crack scenCrypto stubDecoder [aaStr] none pktStr { maxLength := 1 }).1.found = true ∧
    (crack scenCrypto stubDecoder [aaStr] none pktStr
      { maxLength := 1 }).1.roomName = some aaStr ∧
    aaStr ≠ PUBLIC_ROOM_NAME ∧
    (∃ pkt, decodePacket stubDecoder (sToLower pktStr) = some pkt ∧
      (crack scenCrypto stubDecoder [aaStr] none pktStr { maxLength := 1 }).1.key
        = some (scenCrypto.deriveKeyFromRoomName (hashMarkStr ++ aaStr)) ∧
      scenCrypto.verifyMac pkt.ciphertext pkt.cipherMac
        (scenCrypto.deriveKeyFromRoomName (hashMarkStr ++ aaStr)) = true ∧
      jsParseIntHex (scenCrypto.getChannelHash
          (scenCrypto.deriveKeyFromRoomName (hashMarkStr ++ aaStr)))
        = jsParseIntHex pkt.channelHash) :=
  ⟨by decide, by decide, by decide,
    crack_success_key_consistent scenCrypto stubDecoder [aaStr] none pktStr
      { maxLength := 1 } aaStr (by decide) (by decide) (by decide)⟩

/-! ## Claim C2 -/

/-- Claim C2, amended: the executor returns the absolute candidate
indices `batchOffset + i` (not the within-batch indices `i`) of the
batch positions whose decoded name is legal, whose key matches the
target hash byte, and whose MAC verifies when a truthy ciphertext and
MAC were supplied. -/
theorem runBatch_contract (C : CryptoModel) (target : Option Nat)
    (nameLength batchOffset batchSize : Nat) (ct mac : Option String) (m : Nat) :
    m ∈ runBatch C target nameLength batchOffset batchSize ct mac ↔
      ∃ i, i < batchSize ∧ m = batchOffset + i ∧
        ∃ name, indexToRoomName nameLength m = some name ∧
          C.getChannelHash (C.deriveKeyFromRoomName (hashMarkStr ++ name))
            = jsToHex2 target ∧
          ((jsTruthy ct && jsTruthy mac) = true →
            C.verifyMac (ct.getD emptyStr) (mac.getD emptyStr)
              (C.deriveKeyFromRoomName (hashMarkStr ++ name)) = true) :=
  runBatch_mem C target nameLength batchOffset batchSize ct mac m

/-! ## Claim C3 -/

/-- Claim C3 evaluated at its failing input: a public-room success
carries neither `resumeFrom` nor `resumeType`, although the claim (and
the repository's own API documentation) says both are always set on
success; moreover the exhausted result at `maxLength = 4` has
`resumeFrom` undefined, because the final index of the length-4 space
decodes to the gap name `9--9`. -/
theorem crack_public_success_lacks_resume :
    (crack pubCrypto stubDecoder [] none pktStr { maxLength := 1 }).1.found = true ∧
    (crack pubCrypto stubDecoder [] none pktStr { maxLength := 1 }).1.resumeFrom = none ∧
    (crack pubCrypto stubDecoder [] none pktStr { maxLength := 1 }).1.resumeType = none ∧
    (exhaustedResult 4).resumeFrom = none ∧
    (exhaustedResult 4).resumeType = some ResumeType.bruteforce := by
  refine ⟨by decide, by decide, by decide, by decide, by decide⟩

/-! ## Claim C1 -/

/-- Counterexample to claim C1 as stated: aborting before the first
dictionary word is checked returns `resumeFrom = "aa"` although `"aa"`
was never inspected (the trace is empty), so the candidate named by the
cursor has not been checked and a resume strictly after it skips it. -/
theorem crack_abort_cursor_not_inspected :
    (crack scenCrypto stubDecoder [aaStr, bbStr] (some 0) pktStr { maxLength := 1 }).1
      = dictAbortResult aaStr ∧
    (dictAbortResult aaStr).aborted = true ∧
    (dictAbortResult aaStr).resumeFrom = some aaStr ∧
    (crack scenCrypto stubDecoder [aaStr, bbStr] (some 0) pktStr
      { maxLength := 1 }).2.dictInspected = [] := by
  refine ⟨by decide, by decide, by decide, by decide⟩

/-! ## Claim C4 -/

/-- Counterexample to claim C4 as stated: resuming the dictionary from a
word that is absent from the word list does not skip Phase A — the
public-room check runs (and here succeeds), although the claim says
Phase A is skipped for every wordlist including when the cursor word
does not occur. -/
theorem crack_dict_resume_absent_word_runs_phaseA :
    (crack pubCrypto stubDecoder [aaStr] none pktStr
        { maxLength := 1, startFrom := some zzStr,
          startFromType := ResumeType.dictionary }).1
      = publicSuccessResult (some emptyStr) ∧
    (crack pubCrypto stubDecoder [aaStr] none pktStr
        { maxLength := 1, startFrom := some zzStr,
          startFromType := ResumeType.dictionary }).2.publicTried = true ∧
    zzStr ∉ [aaStr] := by
  refine ⟨by decide, by decide, by decide⟩

/-! ## Claim C5 -/

/-- The resume options of the claim-C5 scenario: a brute-force cursor
`a` together with `startingLength = 3`. -/
def bfResumeOpts : CrackOptions :=
  { maxLength := 3, startingLength := 3, startFrom := some aStr,
    startFromType := ResumeType.bruteforce }

/-- Counterexample to claim C5 as stated: with `startingLength = 3` and
the legal cursor `a` (length 1, index 0), Phase C starts at length
`max(startingLength, 1) = 3`, offset 1 — not at `(length(W), index+1) =
(1, 1)`.  An abort observed at the first batch boundary accordingly
returns the length-3 cursor `aab`, not the length-1 cursor `b`. -/
theorem crack_bruteforce_resume_uses_max :
    resolveStart [] bfResumeOpts = ⟨3, 1, 0, true⟩ ∧
    resolveStart [] bfResumeOpts ≠ ⟨1, 1, 0, true⟩ ∧
    roomNameToIndex (sToLower aStr) = some (1, 0) ∧
    (crack scenCrypto stubDecoder [] (some 1) pktStr bfResumeOpts).1
      = bfAbortResult 3 1 ∧
    (bfAbortResult 3 1).resumeFrom = some aabStr := by
  refine ⟨by decide, by decide, by decide, by decide, by decide⟩

/-- A crack run with a brute-force cursor skips Phase A and the whole
dictionary phase. -/
theorem crackAfterDecode_skip_dict (cx : CrackCtx) (h : cx.rs.skipDictionary = true) :
    (crackAfterDecode cx).2.dictInspected = [] ∧
      (crackAfterDecode cx).2.publicTried = false := by
  have hd : dictPhase cx = ⟨PhaseOut.cont 0, []⟩ := by
    rw [dictPhase, if_neg]
    simp [h]
  have htp : crackTryPublic cx = false := by
    simp [crackTryPublic, h]
  have hpo : phaseAOutcome cx = none := by
    rw [phaseAOutcome, htp]
    simp
  rw [crackAfterDecode, hpo]
  simp only [hd]
  rcases hbo : (bfOuter cx (cx.opts.maxLength + 1 - cx.rs.startFromLength)
      cx.rs.startFromLength 0).out with r | k
  · simp only [hbo, htp]
    exact ⟨by trivial, by trivial⟩
  · simp only [hbo, htp]
    exact ⟨by trivial, by trivial⟩

/-- Claim C5, amended: with a brute-force cursor `W` that is a legal
room name at `(len, idx)`, Phase A and Phase B are skipped entirely and
Phase C starts at `(max(startingLength, len), idx + 1)`, rolling over to
offset `0` of the next length when `idx + 1` reaches that length's
count.  (The claim said the phase starts at `(len, idx + 1)`; the code
takes the maximum with `startingLength`.) -/
theorem crack_bruteforce_resume (C : CryptoModel) (decoder : Decoder)
    (wl : List String) (abortAt : Option Nat) (packetHex : String)
    (opts : CrackOptions) (sf : String) (len idx : Nat)
    (hsf : opts.startFrom = some sf)
    (htype : opts.startFromType = ResumeType.bruteforce)
    (hpos : roomNameToIndex (sToLower sf) = some (len, idx)) :
    resolveStart wl opts
      = (if idx + 1 ≥ countNamesForLength (max opts.startingLength len) then
          ⟨max opts.startingLength len + 1, 0, 0, true⟩
        else ⟨max opts.startingLength len, idx + 1, 0, true⟩) ∧
    (crack C decoder wl abortAt packetHex opts).2.publicTried = false ∧
    (crack C decoder wl abortAt packetHex opts).2.dictInspected = [] := by
  have hrs : resolveStart wl opts
      = (if idx + 1 ≥ countNamesForLength (max opts.startingLength len) then
          ⟨max opts.startingLength len + 1, 0, 0, true⟩
        else ⟨max opts.startingLength len, idx + 1, 0, true⟩) := by
    rw [resolveStart, hsf]
    simp only [htype, hpos]
  have hskip : (resolveStart wl opts).skipDictionary = true := by
    rw [hrs]
    split_ifs <;> rfl
  refine ⟨hrs, ?_⟩
  rcases hdec : decodePacket decoder (sToLower packetHex) with _ | pkt
  · rw [crack_eq, hdec]
    exact ⟨rfl, rfl⟩
  · have hceq : crack C decoder wl abortAt packetHex opts
        = crackAfterDecode ⟨C, pkt, opts, wl, abortAt, resolveStart wl opts⟩ := by
      rw [crack_eq, hdec]
    rw [hceq]
    obtain ⟨h1, h2⟩ := crackAfterDecode_skip_dict
      ⟨C, pkt, opts, wl, abortAt, resolveStart wl opts⟩ hskip
    exact ⟨h2, h1⟩

/-- Witness for claim C5 at the cursor `a` with `startingLength = 3`. -/
theorem crack_bruteforce_resume_witness :
    bfResumeOpts.startFrom = some aStr ∧
    bfResumeOpts.startFromType = ResumeType.bruteforce ∧
    roomNameToIndex (sToLower aStr) = some (1, 0) ∧
    (resolveStart [] bfResumeOpts
        = (if 0 + 1 ≥ countNamesForLength (max bfResumeOpts.startingLength 1) then
            ⟨max bfResumeOpts.startingLength 1 + 1, 0, 0, true⟩
          else ⟨max bfResumeOpts.startingLength 1, 0 + 1, 0, true⟩) ∧
      (crack scenCrypto stubDecoder [] none pktStr bfResumeOpts).2.publicTried = false ∧
      (crack scenCrypto stubDecoder [] none pktStr bfResumeOpts).2.dictInspected = []) :=
  ⟨by decide, by decide, by decide,
    crack_bruteforce_resume scenCrypto stubDecoder [] none pktStr bfResumeOpts
      aStr 1 0 (by decide) (by decide) (by decide)⟩

/-- The resume options of the claim-C4 witness scenario: a dictionary
cursor at the word `bb`. -/
def dictResumeOpts : CrackOptions :=
  { maxLength := 1, startFrom := some bbStr, startFromType := ResumeType.dictionary }

/-- Claim C4, amended: with a dictionary cursor `W` whose first word-list
occurrence is at index `idx = indexOf(W)`, the dictionary phase resumes
at `idx + 1` — so that first occurrence is never hash-checked — Phase A
is skipped, and Phase C is set up to start at `(startingLength, 0)` after
the dictionary.  (When `W` does not occur in the word list the code
starts the dictionary from the beginning and Phase A runs; the claim
wrongly extended the Phase-A skip to that case.) -/
theorem crack_dictionary_resume (C : CryptoModel) (decoder : Decoder)
    (wl : List String) (abortAt : Option Nat) (packetHex : String)
    (opts : CrackOptions) (sf : String)
    (hsf : opts.startFrom = some sf)
    (htype : opts.startFromType = ResumeType.dictionary)
    (hmem : List.indexOf (sToLower sf) wl < wl.length) :
    resolveStart wl opts
      = ⟨opts.startingLength, 0, List.indexOf (sToLower sf) wl + 1, false⟩ ∧
    (crack C decoder wl abortAt packetHex opts).2.publicTried = false ∧
    (∀ j ∈ (crack C decoder wl abortAt packetHex opts).2.dictInspected,
      List.indexOf (sToLower sf) wl < j) := by
  have hrs : resolveStart wl opts
      = ⟨opts.startingLength, 0, List.indexOf (sToLower sf) wl + 1, false⟩ := by
    rw [resolveStart, hsf]
    simp only [htype]
    rw [if_pos hmem]
  refine ⟨hrs, ?_, ?_⟩
  · rcases hdec : decodePacket decoder (sToLower packetHex) with _ | pkt
    · rw [crack_eq, hdec]
      rfl
    · have hceq : crack C decoder wl abortAt packetHex opts
          = crackAfterDecode ⟨C, pkt, opts, wl, abortAt, resolveStart wl opts⟩ := by
        rw [crack_eq, hdec]
      rw [hceq]
      obtain ⟨htp, -, -, -⟩ := crackAfterDecode_cases
        ⟨C, pkt, opts, wl, abortAt, resolveStart wl opts⟩
      rw [htp]
      have hds : (⟨C, pkt, opts, wl, abortAt, resolveStart wl opts⟩
          : CrackCtx).rs.dictionaryStartIndex = List.indexOf (sToLower sf) wl + 1 := by
        rw [show (⟨C, pkt, opts, wl, abortAt, resolveStart wl opts⟩
          : CrackCtx).rs = resolveStart wl opts from rfl, hrs]
      rw [crackTryPublic, hds]
      simp
  · rcases hdec : decodePacket decoder (sToLower packetHex) with _ | pkt
    · rw [crack_eq, hdec]
      intro j hj
      simp [emptyTrace] at hj
    · have hceq : crack C decoder wl abortAt packetHex opts
          = crackAfterDecode ⟨C, pkt, opts, wl, abortAt, resolveStart wl opts⟩ := by
        rw [crack_eq, hdec]
      rw [hceq]
      obtain ⟨-, ⟨n, hins⟩, -, -⟩ := crackAfterDecode_cases
        ⟨C, pkt, opts, wl, abortAt, resolveStart wl opts⟩
      have hds : (⟨C, pkt, opts, wl, abortAt, resolveStart wl opts⟩
          : CrackCtx).rs.dictionaryStartIndex = List.indexOf (sToLower sf) wl + 1 := by
        rw [show (⟨C, pkt, opts, wl, abortAt, resolveStart wl opts⟩
          : CrackCtx).rs = resolveStart wl opts from rfl, hrs]
      rw [hds] at hins
      intro j hj
      rw [hins, List.mem_range'_1] at hj
      omega

/-- Witness for claim C4 at the word list `[aa, bb]` and cursor `bb`. -/
theorem crack_dictionary_resume_witness :
    dictResumeOpts.startFrom = some bbStr ∧
    dictResumeOpts.startFromType = ResumeType.dictionary ∧
    List.indexOf (sToLower bbStr) [aaStr, bbStr] < ([aaStr, bbStr] : List String).length ∧
    (resolveStart [aaStr, bbStr] dictResumeOpts
        = ⟨dictResumeOpts.startingLength, 0,
            List.indexOf (sToLower bbStr) [aaStr, bbStr] + 1, false⟩ ∧
      (crack scenCrypto stubDecoder [aaStr, bbStr] none pktStr
        dictResumeOpts).2.publicTried = false ∧
      (∀ j ∈ (crack scenCrypto stubDecoder [aaStr, bbStr] none pktStr
          dictResumeOpts).2.dictInspected,
        List.indexOf (sToLower bbStr) [aaStr, bbStr] < j)) :=
  ⟨by decide, by decide, by decide,
    crack_dictionary_resume scenCrypto stubDecoder [aaStr, bbStr] none pktStr
      dictResumeOpts bbStr (by decide) (by decide) (by decide)⟩

/-- Claim C1, amended: on a dictionary or brute-force success the cursor
names the match itself, which is the last candidate inspected; on a
dictionary abort it names the next word not yet inspected, every
inspected index preceding it strictly; on a brute-force abort it decodes
the next pending position, every dispatched batch lying strictly before
it in `(length, offset)` order; on exhaustion it decodes the final index
of the `maxLength` space.  So a resume strictly after the cursor loses
nothing after a success, but after an abort it skips the single
uninspected candidate the cursor names. -/
theorem crack_resume_cursor (C : CryptoModel) (decoder : Decoder) (wl : List String)
    (abortAt : Option Nat) (packetHex : String) (opts : CrackOptions) :
    ((crack C decoder wl abortAt packetHex opts).1.aborted = true →
      (crack C decoder wl abortAt packetHex opts).1.resumeType
          = some ResumeType.dictionary →
      ∃ j, j < wl.length ∧
        (crack C decoder wl abortAt packetHex opts).1.resumeFrom
          = some (wl.getD j emptyStr) ∧
        j ∉ (crack C decoder wl abortAt packetHex opts).2.dictInspected ∧
        (∀ i ∈ (crack C decoder wl abortAt packetHex opts).2.dictInspected, i < j)) ∧
    ((crack C decoder wl abortAt packetHex opts).1.aborted = true →
      (crack C decoder wl abortAt packetHex opts).1.resumeType
          = some ResumeType.bruteforce →
      ∃ l o, (crack C decoder wl abortAt packetHex opts).1.resumeFrom
          = indexToRoomName l o ∧
        (∀ b ∈ (crack C decoder wl abortAt packetHex opts).2.bfBatches,
          b.1 < l ∨ (b.1 = l ∧ b.2.1 + b.2.2 ≤ o))) ∧
    ((crack C decoder wl abortAt packetHex opts).1.found = true →
      (crack C decoder wl abortAt packetHex opts).1.resumeType
          = some ResumeType.dictionary →
      ∃ j, j < wl.length ∧
        (crack C decoder wl abortAt packetHex opts).1.resumeFrom
          = some (wl.getD j emptyStr) ∧
        (crack C decoder wl abortAt packetHex opts).1.roomName
          = some (wl.getD j emptyStr) ∧
        j ∈ (crack C decoder wl abortAt packetHex opts).2.dictInspected ∧
        (∀ i ∈ (crack C decoder wl abortAt packetHex opts).2.dictInspected, i ≤ j)) ∧
    ((crack C decoder wl abortAt packetHex opts).1.found = true →
      (crack C decoder wl abortAt packetHex opts).1.resumeType
          = some ResumeType.bruteforce →
      ∃ l o n m name,
        (l, o, n) ∈ (crack C decoder wl abortAt packetHex opts).2.bfBatches ∧
        o ≤ m ∧ m < o + n ∧ indexToRoomName l m = some name ∧
        (crack C decoder wl abortAt packetHex opts).1.resumeFrom = some name ∧
        (crack C decoder wl abortAt packetHex opts).1.roomName = some name) ∧
    ((crack C decoder wl abortAt packetHex opts).1.found = false →
      (crack C decoder wl abortAt packetHex opts).1.aborted = false →
      (crack C decoder wl abortAt packetHex opts).1.error = none →
      (crack C decoder wl abortAt packetHex opts).1.resumeFrom
          = indexToRoomName opts.maxLength (countNamesForLength opts.maxLength - 1) ∧
        (crack C decoder wl abortAt packetHex opts).1.resumeType
          = some ResumeType.bruteforce) := by
  rcases hdec : decodePacket decoder (sToLower packetHex) with _ | pkt
  · have hc : crack C decoder wl abortAt packetHex opts
        = (parseErrorResult, emptyTrace) := by
      rw [crack_eq, hdec]
    rw [hc]
    refine ⟨?_, ?_, ?_, ?_, ?_⟩
    · intro h _
      simp [parseErrorResult] at h
    · intro h _
      simp [parseErrorResult] at h
    · intro h _
      simp [parseErrorResult] at h
    · intro h _
      simp [parseErrorResult] at h
    · intro _ _ herr
      simp [parseErrorResult] at herr
  · have hceq : crack C decoder wl abortAt packetHex opts
        = crackAfterDecode ⟨C, pkt, opts, wl, abortAt, resolveStart wl opts⟩ := by
      rw [crack_eq, hdec]
    set cx : CrackCtx := ⟨C, pkt, opts, wl, abortAt, resolveStart wl opts⟩ with hcx
    rw [hceq]
    obtain ⟨-, -, -, hcases⟩ := crackAfterDecode_cases cx
    rcases hcases with ⟨msg, hres, -, -, -⟩ |
      ⟨j, msg, hj1, hj2, hres, -, -, hins, -⟩ | ⟨j, hj1, hj2, hres, hins, -⟩ |
      ⟨l, o, n, m, name, msg, hmem, hrb, hdec2, hres, -⟩ |
      ⟨l, o, hl1, hl2, hres, hball⟩ | hres
    · -- public-room success
      refine ⟨?_, ?_, ?_, ?_, ?_⟩
      · intro h _
        rw [hres] at h
        simp [publicSuccessResult] at h
      · intro h _
        rw [hres] at h
        simp [publicSuccessResult] at h
      · intro _ hrt
        rw [hres] at hrt
        simp [publicSuccessResult] at hrt
      · intro _ hrt
        rw [hres] at hrt
        simp [publicSuccessResult] at hrt
      · intro hf _ _
        rw [hres] at hf
        simp [publicSuccessResult] at hf
    · -- dictionary success
      refine ⟨?_, ?_, ?_, ?_, ?_⟩
      · intro h _
        rw [hres] at h
        simp [dictSuccessResult] at h
      · intro h _
        rw [hres] at h
        simp [dictSuccessResult] at h
      · intro _ _
        refine ⟨j, hj2, by rw [hres]; rfl, by rw [hres]; rfl, ?_, ?_⟩
        · rw [hins, List.mem_range'_1]
          omega
        · intro i hi
          rw [hins, List.mem_range'_1] at hi
          omega
      · intro _ hrt
        rw [hres] at hrt
        simp [dictSuccessResult] at hrt
      · intro hf _ _
        rw [hres] at hf
        simp [dictSuccessResult] at hf
    · -- dictionary abort
      refine ⟨?_, ?_, ?_, ?_, ?_⟩
      · intro _ _
        refine ⟨j, hj2, by rw [hres]; rfl, ?_, ?_⟩
        · rw [hins]
          intro hmem2
          rw [List.mem_range'_1] at hmem2
          omega
        · intro i hi
          rw [hins, List.mem_range'_1] at hi
          omega
      · intro _ hrt
        rw [hres] at hrt
        simp [dictAbortResult] at hrt
      · intro hf _
        rw [hres] at hf
        simp [dictAbortResult] at hf
      · intro hf _
        rw [hres] at hf
        simp [dictAbortResult] at hf
      · intro _ hab _
        rw [hres] at hab
        simp [dictAbortResult] at hab
    · -- brute-force success
      refine ⟨?_, ?_, ?_, ?_, ?_⟩
      · intro h _
        rw [hres] at h
        simp [bfSuccessResult] at h
      · intro h _
        rw [hres] at h
        simp [bfSuccessResult] at h
      · intro _ hrt
        rw [hres] at hrt
        simp [bfSuccessResult] at hrt
      · intro _ _
        rw [runBatch_mem] at hrb
        obtain ⟨i, hi, him, -⟩ := hrb
        exact ⟨l, o, n, m, name, hmem, by omega, by omega, hdec2,
          by rw [hres]; rfl, by rw [hres]; rfl⟩
      · intro hf _ _
        rw [hres] at hf
        simp [bfSuccessResult] at hf
    · -- brute-force abort
      refine ⟨?_, ?_, ?_, ?_, ?_⟩
      · intro _ hrt
        rw [hres] at hrt
        simp [bfAbortResult] at hrt
      · intro _ _
        exact ⟨l, o, by rw [hres]; rfl, hball⟩
      · intro hf _
        rw [hres] at hf
        simp [bfAbortResult] at hf
      · intro hf _
        rw [hres] at hf
        simp [bfAbortResult] at hf
      · intro _ hab _
        rw [hres] at hab
        simp [bfAbortResult] at hab
    · -- exhausted
      refine ⟨?_, ?_, ?_, ?_, ?_⟩
      · intro h _
        rw [hres] at h
        simp [exhaustedResult] at h
      · intro h _
        rw [hres] at h
        simp [exhaustedResult] at h
      · intro hf _
        rw [hres] at hf
        simp [exhaustedResult] at hf
      · intro hf _
        rw [hres] at hf
        simp [exhaustedResult] at hf
      · intro _ _ _
        exact ⟨by rw [hres]; rfl, by rw [hres]; rfl⟩

end MeshCrack
